import Mathlib

/-!
Verification development for `opacplot2/opg_propaceos.py`, a parser for
PROPACEOS ascii opacity/EOS tables.  The Python source is shallowly embedded:
lines are `String`s (with the trailing newline stripped, as `f_raw` stores
them), parsed floats are modelled as `ℚ` (exact decimal values; IEEE rounding
is not modelled), fallible operations return `Except String`, and the
`dict`-typed result table is an association list from keys to values.
-/

deriving instance DecidableEq for Except

namespace Propaceos

/-- ASCII whitespace characters matched by the regex class `\s`
(space, tab, newline, carriage return, vertical tab, form feed). -/
def isWs (c : Char) : Bool :=
  c = ' ' || c = '\t' || c = '\n' || c = '\r' || c = '\x0b' || c = '\x0c'

/-- A document line, with its trailing newline already stripped
(the source stores `line.replace('\n', '')` into `f_raw`). -/
abbrev Line := String

/-- Tail of the marker test, entered after at least one leading asterisk has
been consumed: skip further asterisks; the next character must be whitespace.
The empty case is `true` because the physical line still carried its
terminating newline (which `\s+` matches) when `re.match` ran. -/
def markerTail : List Char → Bool
  | [] => true
  | c :: rest => if c = '*' then markerTail rest else isWs c

/-- Embeds `re.match(r'\*+\s+.*', line) is not None` (source line 118),
applied to the raw line read from the file, which ends in a newline.
`line` here is the stripped line as stored in `f_raw`. -/
def isMarker (l : List Char) : Bool :=
  match l with
  | c :: rest => c = '*' && markerTail rest
  | [] => false

/-- Marker test on a stored line. -/
def isMarkerS (s : Line) : Bool := isMarker s.data

/-- The claim's description of the marker test: the line (with its newline
terminator restored) decomposes as one or more asterisks, then one or more
whitespace characters, then anything. -/
def MarkerRegex (l : List Char) : Prop :=
  ∃ a b c, l ++ ['\n'] = a ++ b ++ c ∧ a ≠ [] ∧ (∀ x ∈ a, x = '*') ∧
    b ≠ [] ∧ (∀ x ∈ b, isWs x = true)

/-- The boolean marker sequence `f_star` of a document. -/
def starsOf (doc : List Line) : List Bool := doc.map isMarkerS

/-- Indices `i` with `s[i-1] = false` and `s[i] = true`, collected by scanning
with the previous value as state; `k` is the index of the head of the
remaining list.  Embeds `np.nonzero(np.diff(f_star) == 1)[0] + 1`. -/
def upIdxsAux : Bool → Nat → List Bool → List Nat
  | _, _, [] => []
  | false, k, true :: rest => k :: upIdxsAux true (k + 1) rest
  | false, k, false :: rest => upIdxsAux false (k + 1) rest
  | true, k, b :: rest => upIdxsAux b (k + 1) rest

/-- Indices `i` with `s[i-1] = true` and `s[i] = false`.
Embeds `np.nonzero(np.diff(f_star) == -1)[0] + 1`. -/
def downIdxsAux : Bool → Nat → List Bool → List Nat
  | _, _, [] => []
  | true, k, false :: rest => k :: downIdxsAux false (k + 1) rest
  | true, k, true :: rest => downIdxsAux true (k + 1) rest
  | false, k, b :: rest => downIdxsAux b (k + 1) rest

/-- All non-marker → marker transition indices of a boolean sequence. -/
def upIdxs : List Bool → List Nat
  | [] => []
  | b :: rest => upIdxsAux b 1 rest

/-- All marker → non-marker transition indices of a boolean sequence. -/
def downIdxs : List Bool → List Nat
  | [] => []
  | b :: rest => downIdxsAux b 1 rest

/-- `section_begin` (source line 123). -/
def sectionBegins (doc : List Line) : List Nat := upIdxs (starsOf doc)

/-- `section_mid` (source line 127): all marker → non-marker transitions
EXCEPT the first, which the source discards with `[1:]`. -/
def sectionMids (doc : List Line) : List Nat := (downIdxs (starsOf doc)).drop 1

/-- `section_end` (source lines 124-126): `section_end[:-1] = section_begin[1:]`
and `section_end[-1] = len(f_raw)`.  Only meaningful when `section_begin` is
nonempty; the source raises `IndexError` otherwise, which `scanSections`
reproduces before using this helper. -/
def sectionEnds (doc : List Line) : List Nat :=
  if sectionBegins doc = [] then [] else
    (sectionBegins doc).drop 1 ++ [doc.length]

/-- Decimal digit test. -/
def isDig (c : Char) : Bool := '0' ≤ c && c ≤ '9'

/-- Value of a list of decimal digit characters. -/
def digitsVal (ds : List Char) : Nat :=
  ds.foldl (fun a c => 10 * a + (c.toNat - 48)) 0

/-- Python `int(s)`: strip surrounding whitespace, optional sign, one or more
decimal digits, nothing else; `None` models the `ValueError` raise. -/
def pyInt (s : String) : Option Int :=
  let l := (s.data.dropWhile isWs).reverse.dropWhile isWs |>.reverse
  match l with
  | '+' :: ds =>
    if ds ≠ [] ∧ ds.all isDig then some (digitsVal ds) else none
  | '-' :: ds =>
    if ds ≠ [] ∧ ds.all isDig then some (-(digitsVal ds : Int)) else none
  | ds =>
    if ds ≠ [] ∧ ds.all isDig then some (digitsVal ds) else none

/-- Python slice `l[a:b]` with possibly negative bounds (negative values count
from the end; out-of-range bounds are clamped, never an error). -/
def pySlice (l : List α) (a b : Int) : List α :=
  let n : Int := l.length
  let norm : Int → Nat := fun x => (if x < 0 then max 0 (n + x) else min x n).toNat
  ((l.take (norm b)).drop (norm a))

/-- Python indexing `l[i]` with possibly negative index; `none` models the
`IndexError` raise. -/
def pyGet (l : List α) (i : Int) : Option α :=
  if i < 0 then
    if 0 ≤ (l.length : Int) + i then l.get? ((l.length : Int) + i).toNat else none
  else l.get? i.toNat

/-- `int(np.ceil(N/10.))` on an integer count (source line 250); for
nonnegative `n` this is `⌈n/10⌉`.  Float imprecision at astronomically large
counts is not modelled. -/
def ceil10 (n : Int) : Int := (n + 9).fdiv 10

/-! ### Float parsing: `np.fromstring(txt, sep=' ')`

The numpy separated-values reader repeatedly skips whitespace and calls a
C `strtod`-style parser; when no float prefix can be read it stops and
returns what it has so far — it never raises.  We model the value exactly
as `ℚ` (decimal notation only; `strtod`'s inf/nan/hex extensions are not
modelled, and the theorems below restrict the offending token so that the
unmodelled extensions cannot fire). -/

/-- Optional sign; returns the sign as `1` or `-1` and the rest. -/
def readSign (l : List Char) : ℚ × List Char :=
  match l with
  | c :: r => if c = '+' then (1, r) else if c = '-' then (-1, r) else (1, c :: r)
  | [] => (1, [])

/-- Integer sign for the exponent part. -/
def readSignZ (l : List Char) : Int × List Char :=
  match l with
  | c :: r => if c = '+' then (1, r) else if c = '-' then (-1, r) else (1, c :: r)
  | [] => (1, [])

/-- Exponent part of `strtod`: `[eE][+-]?digits`, committed only when at
least one exponent digit is present, otherwise nothing is consumed. -/
def parseExp (m : ℚ) (l : List Char) : ℚ × List Char :=
  match l with
  | c :: rest =>
    if c = 'e' ∨ c = 'E' then
      let sg := (readSignZ rest).1
      let r1 := (readSignZ rest).2
      let ds := r1.takeWhile isDig
      let r2 := r1.dropWhile isDig
      if ds = [] then (m, c :: rest)
      else (m * (10 : ℚ) ^ (sg * (digitsVal ds : Int)), r2)
    else (m, c :: rest)
  | [] => (m, [])

/-- Longest run of digits and the rest. -/
def spanDig (l : List Char) : List Char × List Char :=
  (l.takeWhile isDig, l.dropWhile isDig)

/-- Fractional part: a dot followed by digits, or nothing. -/
def fracPart (l : List Char) : List Char × List Char :=
  match l with
  | c :: r => if c = '.' then spanDig r else ([], c :: r)
  | [] => ([], [])

/-- The exact value of a parsed mantissa. -/
def mantVal (ip fp : List Char) : ℚ :=
  (digitsVal ip : ℚ) + (digitsVal fp : ℚ) / (10 : ℚ) ^ fp.length

/-- Longest float prefix of a character list, `strtod`-style:
`[+-]? (digits [. digits*] | . digits+) ([eE][+-]?digits+)?`.
Returns the value and the unconsumed rest, or `none` when no prefix parses
(in which case nothing is consumed). -/
def floatPre (l : List Char) : Option (ℚ × List Char) :=
  let sg := (readSign l).1
  let l1 := (readSign l).2
  let ip := (spanDig l1).1
  let l2 := (spanDig l1).2
  let fp := (fracPart l2).1
  let l3 := (fracPart l2).2
  if ip = [] ∧ fp = [] then none
  else some (parseExp (sg * mantVal ip fp) l3)

/-- A whole token parsing as a float (`strtod` consumes it entirely). -/
def cleanTok (t : String) : Option ℚ :=
  match floatPre t.data with
  | some (v, []) => some v
  | _ => none

/-- The characters of several whitespace-joined tokens followed by a tail,
as the separated-values reader sees them. -/
def joinChars : List String → List Char → List Char
  | [], B => B
  | g :: gs, B => g.data ++ ' ' :: joinChars gs B

/-- A character that cannot begin any float prefix — also under the real
`strtod`, whose `inf`/`nan` extensions our model omits (hence the
exclusion of `i`/`I`/`n`/`N`), and that is not whitespace (so the
separated-values loop cannot skip it). -/
def noFloatStart (c : Char) : Bool :=
  !(isDig c || c = '+' || c = '-' || c = '.' || c = 'i' || c = 'I' ||
    c = 'n' || c = 'N' || isWs c)

/-- The separated-values loop of `np.fromstring(·, sep=' ')`: skip
whitespace, read a float prefix, repeat; stop silently (returning the values
collected so far) at the first position where no float prefix parses.
Structured with fuel; `str2float` supplies enough fuel for the loop never to
be cut short (each successful read consumes at least one character). -/
def str2floatCore : Nat → List Char → List ℚ
  | 0, _ => []
  | fuel + 1, l =>
    match floatPre (l.dropWhile isWs) with
    | none => []
    | some (v, rest) => v :: str2floatCore fuel rest

/-- `OpgPropaceosAscii.str2float` (source lines 275-278):
`np.fromstring(' '.join(txt), sep=' ')`. -/
def str2float (txt : List Line) : List ℚ :=
  let joined := (" ".intercalate txt).data
  str2floatCore (joined.length + 1) joined

/-- `np.fromstring(x, sep=' ')` on a single string. -/
def str2arr (l : List Char) : List ℚ := str2floatCore (l.length + 1) l

/-! ### The result table

`OpgPropaceosAscii` is a `dict` subclass; we model it as an association
list from string keys to values.  Values are integers, scalars, or 1-D/2-D/3-D
arrays of exact rationals. -/

/-- A value stored in the table. -/
inductive Val where
  | i (n : Int)
  | s (x : ℚ)
  | r1 (x : List ℚ)
  | r2 (x : List (List ℚ))
  | r3 (x : List (List (List ℚ)))
  deriving DecidableEq

/-- The mutable result dict. -/
abbrev Table := List (String × Val)

/-- Dict lookup `self[k]`; `none` models `KeyError`. -/
def getK : Table → String → Option Val
  | [], _ => none
  | p :: t, k => if p.1 = k then some p.2 else getK t k

/-- Dict assignment `self[k] = v` (replace in place, or append a new key). -/
def setK : Table → String → Val → Table
  | [], k, v => [(k, v)]
  | p :: t, k, v => if p.1 = k then (k, v) :: t else p :: setK t k v

/-- Dict deletion `del self[k]`; raises `KeyError` when absent. -/
def delK : Table → String → Except String Table
  | [], k => .error ("KeyError: " ++ k)
  | p :: t, k => if p.1 = k then .ok t else (delK t k).map (p :: ·)

/-- Fetch any value, `KeyError` when absent. -/
def getVal (tbl : Table) (k : String) : Except String Val :=
  match getK tbl k with
  | some v => .ok v
  | none => .error ("KeyError: " ++ k)

/-- Fetch an integer entry. -/
def getInt (tbl : Table) (k : String) : Except String Int :=
  match getK tbl k with
  | some (.i n) => .ok n
  | some _ => .error ("TypeError: " ++ k)
  | none => .error ("KeyError: " ++ k)

/-- Fetch a 1-D array entry. -/
def getArr1 (tbl : Table) (k : String) : Except String (List ℚ) :=
  match getK tbl k with
  | some (.r1 x) => .ok x
  | some _ => .error ("TypeError: " ++ k)
  | none => .error ("KeyError: " ++ k)

/-- Fetch a 3-D array entry. -/
def getArr3 (tbl : Table) (k : String) : Except String (List (List (List ℚ))) :=
  match getK tbl k with
  | some (.r3 x) => .ok x
  | some _ => .error ("TypeError: " ++ k)
  | none => .error ("KeyError: " ++ k)

/-! ### Grid parser (`_parse_grid`, source lines 237-260) -/

/-- Message for a Python `IndexError`. -/
def errIndex : String := "IndexError: list index out of range"

/-- Message for the `ValueError` raised by `int()` on a bad literal. -/
def errIntLit (st : String) : String :=
  "ValueError: invalid literal for int() with base 10: " ++ st

/-- Body of the grid parser, operating on the line list AFTER the source's
line filter `[el for el in txt if el]` has been applied.  Shared between the
embedding of `_parse_grid` and the claim-worded variant `gridSpec`, which
differ only in which lines the filter removes. -/
def gridCore (tbl : Table) (txt : List Line) (tag : String) : Except String Table :=
  let temp_lbl := "temp_" ++ tag
  let nion_lbl := "nion_" ++ tag
  match pyGet txt 0 with
  | none => .error errIndex
  | some c0 =>
    match pyInt c0 with
    | none => .error (errIntLit c0)
    | some nT =>
      let skT := ceil10 nT
      let temp := str2float (pySlice txt 1 (skT + 1))
      match pyGet txt (skT + 1) with
      | none => .error errIndex
      | some c1 =>
        match pyInt c1 with
        | none => .error (errIntLit c1)
        | some nN =>
          let skN := ceil10 nN
          let nion := str2float (pySlice txt (skT + 2) (skT + 2 + skN))
          .ok (setK (setK (setK (setK tbl ("N_" ++ temp_lbl) (.i nT))
            temp_lbl (.r1 temp)) ("N_" ++ nion_lbl) (.i nN)) nion_lbl (.r1 nion))

/-- `OpgPropaceosAscii._parse_grid`: the source first removes the falsy
(i.e. EMPTY) lines with `txt = [el for el in txt if el]`, then reads the
temperature count, `ceil(N/10)` temperature lines, the density count and
`ceil(N/10)` density lines. -/
def _parse_grid (tbl : Table) (txt0 : List Line) (tag : String) :
    Except String Table :=
  gridCore tbl (txt0.filter (fun el => el ≠ "")) tag

/-- The grid-parsing algorithm as the claim words it, parameterised by what
counts as a "blank" line: blank lines are skipped, the first non-blank line
is the temperature count, and so on. -/
def gridSpec (blank : Line → Bool) (tbl : Table) (txt0 : List Line)
    (tag : String) : Except String Table :=
  gridCore tbl (txt0.filter (fun el => !blank el)) tag

/-- Reading of "blank line" under which the claim matches the code:
only the empty line is blank. -/
def blankEmpty (el : Line) : Bool := el = ""

/-- Common reading of "blank line": empty or whitespace-only. -/
def blankWs (el : Line) : Bool := el.data.all isWs

/-! ### Header classifier (`_parse_header` and the dispatch table) -/

/-- Whitespace-collapsing scan with a "previous character was whitespace"
state: embeds `re.sub('\s+', ' ', txt)` (each maximal whitespace run becomes
one space). -/
def collapseWsAux : Bool → List Char → List Char
  | _, [] => []
  | prevWs, c :: rest =>
    if isWs c then (if prevWs then [] else [' ']) ++ collapseWsAux true rest
    else c :: collapseWsAux false rest

/-- `re.sub('\s+', ' ', txt)`. -/
def collapseWs (l : List Char) : List Char := collapseWsAux false l

/-- `OpgPropaceosAscii._parse_header` (source lines 229-235): concatenate the
header lines, delete every asterisk (`re.sub('\*+','')`), collapse whitespace
runs to single spaces. -/
def _parse_header (f : List Line) : List Char :=
  collapseWs ((String.join f).data.filter (fun c => c ≠ '*'))

/-- Substring containment, Python's `expr in header`. -/
def containsSub (needle hay : List Char) : Bool :=
  hay.tails.any (fun t => needle.isPrefixOf t)

/-- What the dispatch table does with a recognised section. -/
inductive ActKind where
  | gridEos
  | gridOpac
  | groups
  | arr (key : String)
  deriving DecidableEq

/-- The priority-ordered `actions` dispatch table (source lines 140-157),
in source order. -/
def actions : List (String × ActKind) :=
  [("mesh parameters for EoS", .gridEos),
   ("parameters for opacity", .gridOpac),
   ("group structure", .groups),
   ("Ionization Fractions", .arr "ion_frac"),
   ("Zbar", .arr "zbar"),
   ("Int. Rosseland Mean Opacity", .arr "opr_int"),
   ("Int. emis. Planck Mean Opacity", .arr "emp_int"),
   ("Int. abs. Planck Mean Opacity", .arr "opp_int"),
   ("Eint", .arr "eint"),
   ("Eion", .arr "eion"),
   ("Eele", .arr "eele"),
   ("Pion", .arr "pion"),
   ("Pele", .arr "pele"),
   ("Rosseland Mean Opacity", .arr "opr_mg"),
   ("emission Planck Mean Opacity", .arr "emp_mg"),
   ("absorption Planck Mean Opacity", .arr "opp_mg")]

/-- The inner dispatch loop (source lines 166-169): test the normalized
header against each keyword in order, first match wins (`break`). -/
def classify (hdr : List Char) : Option (String × ActKind) :=
  actions.find? (fun a => containsSub a.1.data hdr)

/-- The three keys whose sections recur once per grid point and accumulate
(source line 270). -/
def mgKeys : List String := ["opp_mg", "opr_mg", "emp_mg"]

/-- `OpgPropaceosAscii._parse_array` (source lines 266-273): append to the
growable list for the three multigroup keys, otherwise overwrite. -/
def _parse_array (tbl : Table) (txt : List Line) (key : String) :
    Except String Table :=
  if key ∈ mgKeys then
    match getK tbl key with
    | some (.r2 l) => .ok (setK tbl key (.r2 (l ++ [str2float txt])))
    | _ => .error ("AttributeError: append on " ++ key)
  else .ok (setK tbl key (.r1 (str2float txt)))

/-- `OpgPropaceosAscii._parse_groups` (source lines 262-264). -/
def _parse_groups (tbl : Table) (txt : List Line) : Except String Table :=
  .ok (setK tbl "groups" (.r1 (str2float txt)))

/-- Run the parser selected by the dispatch table. -/
def applyAction (tbl : Table) (k : ActKind) (body : List Line) :
    Except String Table :=
  match k with
  | .gridEos => _parse_grid tbl body "eos"
  | .gridOpac => _parse_grid tbl body "opac"
  | .groups => _parse_groups tbl body
  | .arr key => _parse_array tbl body key

/-- Process one scanned section: classify its header; dispatch on a match,
silently skip otherwise (the loop has no else branch). -/
def processSection (tbl : Table) (hdrLines bodyLines : List Line) :
    Except String Table :=
  match classify (_parse_header hdrLines) with
  | none => .ok tbl
  | some a => applyAction tbl a.2 bodyLines

/-! ### Global header parser (`_parse_global_header`, source lines 208-224) -/

/-- The pattern `label + "\s+"` matches at the start of `l`: the label text
followed by at least one whitespace character.  (The labels of `expr_list`
contain no regex metacharacters besides the trailing `\s+`, so the pattern
is this literal prefix test.) -/
def labelHitL (lab l : List Char) : Bool :=
  lab.isPrefixOf l &&
    (match l.drop lab.length with
     | c :: _ => isWs c
     | [] => false)

/-- `re.match(label + "\s+", line) is not None`: `re.match` anchors the
pattern at the start of the line. -/
def labelHit (label : String) (line : Line) : Bool :=
  labelHitL label.data line.data

/-- One scan step of `re.sub(label + "\s+", '', ·)`: at each position, if
the pattern matches (label text then a maximal run of at least one
whitespace character — `\s+` is greedy and nothing follows it in the
pattern), delete the whole match and resume after it (matches are
non-overlapping); otherwise keep the character and advance by one.
Structured with fuel; every step consumes at least one input character, so
`l.length` fuel always suffices. -/
def reSubAux (lab : List Char) : Nat → List Char → List Char
  | 0, l => l
  | _ + 1, [] => []
  | fuel + 1, c :: rest =>
    if labelHitL lab (c :: rest) then
      reSubAux lab fuel (((c :: rest).drop lab.length).dropWhile isWs)
    else c :: reSubAux lab fuel rest

/-- `re.sub(label + "\s+", '', line)` (source line 224): delete every
leftmost non-overlapping occurrence of the pattern anywhere in the line,
scanning left to right, exactly as Python's `re.sub` does. -/
def stripLabel (label : String) (line : Line) : List Char :=
  reSubAux label.data line.data.length line.data

/-- One `(key, expr, func)` entry of `expr_list`: on a match, store
`func(re.sub(expr, '', line))` under `key`.  `asInt = true` uses `int`
(whose failure raises), otherwise `np.fromstring(·, sep=' ')`. -/
def ghEntry (tbl : Table) (line : Line) (key label : String) (asInt : Bool) :
    Except String Table :=
  if labelHit label line then
    if asInt then
      match pyInt (String.mk (stripLabel label line)) with
      | none => .error (errIntLit (String.mk (stripLabel label line)))
      | some n => .ok (setK tbl key (.i n))
    else .ok (setK tbl key (.r1 (str2arr (stripLabel label line))))
  else .ok tbl

/-- The `expr_list` of `_parse_global_header` (source lines 213-218):
key, label pattern, and whether the value parses as `int`. -/
def ghPatterns : List (String × String × Bool) :=
  [("Num_ions", " number of ions:", true),
   ("Znum", " atomic #s of gases:", false),
   ("Anum", " atomic weight of gas:", false),
   ("Xnum", " relative fractions:", false)]

/-- Process one line of the global header: every one of the four patterns is
tested in turn (the inner loop has no break). -/
def ghLine (t : Table) (line : Line) : Except String Table :=
  ghPatterns.foldlM (fun t2 p => ghEntry t2 line p.1 p.2.1 p.2.2) t

/-- `OpgPropaceosAscii._parse_global_header`: for each line, match against
the fixed labeled patterns; lines matching no pattern are ignored. -/
def _parse_global_header (tbl : Table) (f : List Line) : Except String Table :=
  f.foldlM ghLine tbl

/-- The value a matching global-header line stores: `int(...)` for
`Num_ions` (whose failure raises), `np.fromstring(..., sep=' ')` for the
three array patterns. -/
def ghValue (asInt : Bool) (lbl : String) (line : Line) : Option Val :=
  if asInt then (pyInt (String.mk (stripLabel lbl line))).map .i
  else some (.r1 (str2arr (stripLabel lbl line)))

/-! ### Section scanner (source lines 112-136) -/

/-- The three boundary index lists. -/
structure Sections where
  begins : List Nat
  mids : List Nat
  ends : List Nat
  deriving DecidableEq

/-- Message for the `ValueError` raised on mismatched boundary counts
(`np.concatenate` on ragged rows at line 129, or the explicit check at
line 135 — both raise `ValueError` before any section is dispatched). -/
def errValue : String := "ValueError"

/-- The section scanner: compute `section_begin`; `section_end[-1]` raises
`IndexError` when `section_begin` is empty (line 126); compute `section_mid`
(with its first transition discarded); raise `ValueError` when the counts
disagree.  `section_end` always has the length of `section_begin`, so the
three-way count check reduces to `begins` vs `mids`. -/
def scanSections (doc : List Line) : Except String Sections :=
  let b := sectionBegins doc
  if b = [] then .error errIndex
  else
    let m := sectionMids doc
    if b.length = m.length then .ok ⟨b, m, sectionEnds doc⟩
    else .error errValue

/-! ### Full parse pipeline (`OpgPropaceosAscii.__init__`) -/

/-- Scan plus global-header stage: the global header parser receives
`f_raw[15:section_begin[0]]` (source line 138) — NOT the whole prefix before
the first section; the first 15 lines are skipped unconditionally. -/
def globalStage (doc : List Line) : Except String (Sections × Table) := do
  let secs ← scanSections doc
  let tbl ← _parse_global_header []
    (pySlice doc 15 ((secs.begins.headD 0 : Nat) : Int))
  .ok (secs, tbl)

/-- Initialise the three multigroup keys to empty growable lists
(source lines 159-160). -/
def mgInit (tbl : Table) : Table :=
  setK (setK (setK tbl "opr_mg" (.r2 [])) "emp_mg" (.r2 [])) "opp_mg" (.r2 [])

/-- The section dispatch loop (source lines 162-169): for each boundary
triple, slice out header and body and process the section. -/
def sectionsStage (doc : List Line) (secs : Sections) (tbl : Table) :
    Except String Table :=
  (secs.begins.zip (secs.mids.zip secs.ends)).foldlM
    (fun t p =>
      processSection t (pySlice doc (p.1 : Int) (p.2.1 : Int))
        (pySlice doc (p.2.1 : Int) (p.2.2 : Int))) tbl

/-- `required_shape` (source lines 180-193), in source literal order.
CPython 2 iterates dict entries in an unspecified hash order; every theorem
below is insensitive to the iteration order. -/
def required_shape (nte nne nto nno ni ng : Int) :
    List (String × List Int) :=
  [("zbar", [nne, nte]), ("eint", [nne, nte]), ("eele", [nne, nte]),
   ("eion", [nne, nte]), ("pion", [nne, nte]), ("pele", [nne, nte]),
   ("opp_int", [nno, nto]), ("opr_int", [nno, nto]),
   ("emp_int", [nno, nto]),
   ("ion_frac", [nne, nte, ni]),
   ("emp_mg", [nno, nto, ng]), ("opp_mg", [nno, nto, ng]),
   ("opr_mg", [nno, nto, ng])]

/-- Flat contents of an array value.  The accumulated multigroup lists are
treated as rectangular 2-D arrays (the ragged case, where `np.array` builds
an object array, is not modelled). -/
def flatOf : Val → Except String (List ℚ)
  | .i _ => .error "TypeError: reshape of int"
  | .s _ => .error "TypeError: reshape of scalar"
  | .r1 x => .ok x
  | .r2 x => .ok x.flatten
  | .r3 x => .ok ((x.map List.flatten).flatten)

/-- Split a list into `a` consecutive rows of `b` elements. -/
def chunksN (a b : Nat) (l : List ℚ) : List (List ℚ) :=
  match a with
  | 0 => []
  | a' + 1 => l.take b :: chunksN a' b (l.drop b)

/-- Rendering of a shape tuple as numpy prints it in reshape errors. -/
def shapeStr (dims : List Int) : String :=
  "(" ++ ",".intercalate (dims.map toString) ++ ")"

/-- The `ValueError` message of a failed `ndarray.reshape` (modern numpy
wording; older releases said only that the total size must be unchanged —
in no release does the message contain the table key). -/
def reshapeErr (sz : Nat) (dims : List Int) : String :=
  "ValueError: cannot reshape array of size " ++ toString sz ++
    " into shape " ++ shapeStr dims

/-- `self[key].reshape(new_shape)` for the 2-D and 3-D target shapes the
source uses.  A negative declared count would engage numpy's `-1` dimension
inference, which is not modelled; all theorems below use nonnegative counts. -/
def npReshape (v : Val) (dims : List Int) : Except String Val := do
  let flat ← flatOf v
  if dims.all (fun d => 0 ≤ d) then
    match dims with
    | [a, b] =>
      if flat.length = a.toNat * b.toNat then
        .ok (.r2 (chunksN a.toNat b.toNat flat))
      else .error (reshapeErr flat.length dims)
    | [a, b, c] =>
      if flat.length = a.toNat * b.toNat * c.toNat then
        .ok (.r3 ((chunksN a.toNat (b.toNat * c.toNat) flat).map
          (chunksN b.toNat c.toNat)))
      else .error (reshapeErr flat.length dims)
    | _ => .error "unmodelled shape arity"
  else .error "negative dimension: numpy -1 inference not modelled"

/-- One iteration of the reshape loop:
`self[key] = self[key].reshape(new_shape)`. -/
def reshapeStep (t : Table) (p : String × List Int) : Except String Table := do
  let v ← getVal t p.1
  let v2 ← npReshape v p.2
  .ok (setK t p.1 v2)

/-- The reshape loop (source lines 195-197). -/
def reshapeStage (shapes : List (String × List Int)) (tbl : Table) :
    Except String Table :=
  shapes.foldlM reshapeStep tbl

/-- Flat contents of a table entry, when present and an array. -/
def flatK (tbl : Table) (k : String) : Option (List ℚ) :=
  (getK tbl k).bind (fun v => (flatOf v).toOption)

/-- Product of the target dimensions (all uses are nonnegative). -/
def dimsProd (dims : List Int) : Nat := (dims.map Int.toNat).prod

/-- A value has exactly the given rectangular 2-D or 3-D shape. -/
def HasShape : Val → List Int → Prop
  | .r2 x, [a, b] => x.length = a.toNat ∧ ∀ r ∈ x, r.length = b.toNat
  | .r3 x, [a, b, c] => x.length = a.toNat ∧
      ∀ blk ∈ x, blk.length = b.toNat ∧ ∀ r ∈ blk, r.length = c.toNat
  | _, _ => False

/-- `np.in1d(a, b)`: elementwise membership of `a`'s entries in `b`. -/
def np_in1d (a b : List ℚ) : List Bool := a.map (fun x => decide (x ∈ b))

/-- Boolean-mask selection along the leading axis.  numpy requires the mask
length to equal the leading dimension; the mismatch behaviour is not
modelled (all uses below have equal lengths). -/
def maskFilter (mask : List Bool) (rows : List α) : List α :=
  (mask.zip rows).filterMap (fun p => if p.1 then some p.2 else none)

/-- Mask a value along its leading axis. -/
def maskVal (mask : List Bool) : Val → Except String Val
  | .r1 x => .ok (.r1 (maskFilter mask x))
  | .r2 x => .ok (.r2 (maskFilter mask x))
  | .r3 x => .ok (.r3 (maskFilter mask x))
  | _ => .error "TypeError: mask of non-array"

/-- The EOS-keyed arrays masked by `remove_extra_qeos_pt`, in source order
(line 288). -/
def qeosMaskKeys : List String :=
  ["eele", "eion", "eint", "pele", "pion", "zbar", "ion_frac"]

/-- One iteration of the masking loop of `remove_extra_qeos_pt`
(`self[key] = self[key][mask]`). -/
def maskStep (mask : List Bool) (t : Table) (k : String) :
    Except String Table := do
  let v ← getVal t k
  let v2 ← maskVal mask v
  .ok (setK t k v2)

/-- `OpgPropaceosAscii.remove_extra_qeos_pt` (source lines 280-289):
mask = `np.in1d(nion_eos, nion_opac)`; unify `nion`/`temp` from the opacity
grid; delete the four separate grid keys; drop the non-matching rows from
every EOS-keyed array. -/
def remove_extra_qeos_pt (tbl : Table) : Except String Table := do
  let es ← getArr1 tbl "nion_eos"
  let os ← getArr1 tbl "nion_opac"
  let ts ← getArr1 (setK tbl "nion" (.r1 os)) "temp_opac"
  let t3 ← delK (setK (setK tbl "nion" (.r1 os)) "temp" (.r1 ts)) "nion_opac"
  let t4 ← delK t3 "nion_eos"
  let t5 ← delK t4 "temp_opac"
  let t6 ← delK t5 "temp_eos"
  qeosMaskKeys.foldlM (maskStep (np_in1d es os)) t6

/-- Leading dimension of an array value. -/
def leadDim : Val → Option Nat
  | .r1 x => some x.length
  | .r2 x => some x.length
  | .r3 x => some x.length
  | _ => none

/-- Leading dimension of a table entry. -/
def leadDimK (tbl : Table) (k : String) : Option Nat :=
  (getK tbl k).bind leadDim

/-- `scipy.constants.N_A`.  The exact CODATA value varies across scipy
releases; no claim depends on it. -/
def N_A : ℚ := 6.02214076e23

/-- Elementwise division of equal-length arrays (numpy broadcasting beyond
the equal-length case, and IEEE division by zero, are not modelled; no claim
touches either). -/
def zipDiv (a b : List ℚ) : List ℚ := (a.zip b).map (fun p => p.1 / p.2)

/-- Elementwise division of two 3-D arrays. -/
def zipDiv3 (a b : List (List (List ℚ))) : List (List (List ℚ)) :=
  (a.zip b).map (fun p => (p.1.zip p.2).map (fun q => zipDiv q.1 q.2))

/-- The derived quantities (source lines 201-204): `Abar`, `rho`, `eps_mg`. -/
def derivedStage (tbl : Table) : Except String Table := do
  let xnum ← getArr1 tbl "Xnum"
  let anum ← getArr1 tbl "Anum"
  let abar : ℚ := 1 / (zipDiv xnum anum).sum
  let t1 := setK tbl "Abar" (.s abar)
  let nion ← getArr1 t1 "nion"
  let t2 := setK t1 "rho" (.r1 (nion.map (fun x => x * abar / N_A)))
  let emp ← getArr3 t2 "emp_mg"
  let opp ← getArr3 t2 "opp_mg"
  .ok (setK t2 "eps_mg" (.r3 (zipDiv3 emp opp)))

/-- The whole of `OpgPropaceosAscii.__init__`: scan, global header, dispatch
loop, count retrieval, reshape, QEOS-point removal, derived quantities.
The conversion `self[key] = np.array(self[key])` of the accumulated
multigroup lists (lines 170-171) is the identity in our representation. -/
def parsePropaceos (doc : List Line) : Except String Table := do
  let st ← globalStage doc
  let tbl0 := mgInit st.2
  let tbl ← sectionsStage doc st.1 tbl0
  let nte ← getInt tbl "N_temp_eos"
  let nne ← getInt tbl "N_nion_eos"
  let nto ← getInt tbl "N_temp_opac"
  let nno ← getInt tbl "N_nion_opac"
  let g ← getArr1 tbl "groups"
  let ng : Int := (g.length : Int) - 1
  let tbl1 := setK tbl "N_groups" (.i ng)
  let ni ← getInt tbl1 "Num_ions"
  let tbl2 ← reshapeStage (required_shape nte nne nto nno ni ng) tbl1
  let tbl3 ← remove_extra_qeos_pt tbl2
  derivedStage tbl3

/-! ## Lemmas about the marker test -/

/-- A line passing `markerTail` decomposes (after restoring the newline) into
asterisks, a nonempty whitespace run, and a remainder. -/
theorem markerTail_decomp (rest : List Char) (h : markerTail rest = true) :
    ∃ a b c, rest ++ ['\n'] = a ++ b ++ c ∧ (∀ x ∈ a, x = '*') ∧
      b ≠ [] ∧ (∀ x ∈ b, isWs x = true) := by
  induction rest with
  | nil =>
    exact ⟨[], ['\n'], [], by simp, by simp, by simp, by simp [isWs]⟩
  | cons c r ih =>
    by_cases hc : c = '*'
    · subst hc
      rw [markerTail, if_pos rfl] at h
      obtain ⟨a, b, cc, he, ha, hb, hw⟩ := ih h
      exact ⟨'*' :: a, b, cc, by simp [he], by simpa using ha, hb, hw⟩
    · rw [markerTail, if_neg hc] at h
      exact ⟨[], [c], r ++ ['\n'], by simp, by simp, by simp,
        by simpa using h⟩

/-- Converse: any asterisks/whitespace/rest decomposition forces
`markerTail` to accept. -/
theorem markerTail_of_decomp (a : List Char) : ∀ (b c rest : List Char),
    rest ++ ['\n'] = a ++ b ++ c → (∀ x ∈ a, x = '*') → b ≠ [] →
    (∀ x ∈ b, isWs x = true) → markerTail rest = true := by
  induction a with
  | nil =>
    intro b c rest he _ hb hw
    match b, hb with
    | x :: b', _ =>
      have hx : isWs x = true := hw x (by simp)
      match rest with
      | [] => simp [markerTail]
      | y :: r' =>
        have : y = x := by simpa using congrArg (fun l => l.headD ' ') he
        subst this
        have hy : y ≠ '*' := by
          intro hcon; subst hcon; simp [isWs] at hx
        rw [markerTail, if_neg hy]
        exact hx
  | cons z a' ih =>
    intro b c rest he ha hb hw
    have hz : z = '*' := ha z (by simp)
    subst hz
    match rest with
    | [] =>
      exfalso
      have : '\n' = '*' := by simpa using congrArg (fun l => l.headD ' ') he
      simp at this
    | y :: r' =>
      have hy : y = '*' := by simpa using congrArg (fun l => l.headD ' ') he
      subst hy
      rw [markerTail, if_pos rfl]
      refine ih b c r' ?_ (fun x hx => ha x (by simp [hx])) hb hw
      simpa using congrArg List.tail he

/-- The marker test agrees with the regex `\*+\s+.*` applied to the raw
newline-terminated line. -/
theorem isMarker_iff_regex (l : List Char) :
    isMarker l = true ↔ MarkerRegex l := by
  constructor
  · intro h
    match l, h with
    | c :: rest, h =>
      rw [isMarker, Bool.and_eq_true] at h
      obtain ⟨hc, ht⟩ := h
      have hc' : c = '*' := by simpa using hc
      subst hc'
      obtain ⟨a, b, cc, he, ha, hb, hw⟩ := markerTail_decomp rest ht
      refine ⟨'*' :: a, b, cc, by simp [he], by simp, ?_, hb, hw⟩
      simpa using ha
  · rintro ⟨a, b, c, he, hane, ha, hb, hw⟩
    match a, hane with
    | z :: a', _ =>
      have hz : z = '*' := ha z (by simp)
      subst hz
      match l with
      | [] =>
        exfalso
        have : '\n' = '*' := by simpa using congrArg (fun t => t.headD ' ') he
        simp at this
      | y :: l' =>
        have hy : y = '*' := by simpa using congrArg (fun t => t.headD ' ') he
        subst hy
        rw [isMarker, Bool.and_eq_true]
        refine ⟨by simp, ?_⟩
        refine markerTail_of_decomp a' b c l' ?_
          (fun x hx => ha x (by simp [hx])) hb hw
        simpa using congrArg List.tail he

/-! ## Lemmas about the transition scanner -/

/-- A non-marker → marker transition at diff position `i-1` of the boolean
sequence: the line at `i` is a marker, the line before it is not. -/
def TransitionUpAt (s : List Bool) (i : Nat) : Prop :=
  1 ≤ i ∧ s.getD (i - 1) true = false ∧ s.getD i false = true

/-- A marker → non-marker transition. -/
def TransitionDownAt (s : List Bool) (i : Nat) : Prop :=
  1 ≤ i ∧ s.getD (i - 1) false = true ∧ s.getD i true = false

instance (s : List Bool) (i : Nat) : Decidable (TransitionUpAt s i) := by
  unfold TransitionUpAt; infer_instance

instance (s : List Bool) (i : Nat) : Decidable (TransitionDownAt s i) := by
  unfold TransitionDownAt; infer_instance

theorem mem_upIdxsAux (rest : List Bool) : ∀ (prev : Bool) (k i : Nat),
    i ∈ upIdxsAux prev k rest ↔
      ∃ j, i = k + j ∧ (prev :: rest).getD j true = false ∧
        rest.getD j false = true := by
  induction rest with
  | nil => intro prev k i; simp [upIdxsAux]
  | cons b r ih =>
    intro prev k i
    have hsplit : (∃ j, i = k + j ∧ (prev :: b :: r).getD j true = false ∧
        (b :: r).getD j false = true) ↔
        ((i = k ∧ prev = false ∧ b = true) ∨
         (∃ j, i = (k + 1) + j ∧ (b :: r).getD j true = false ∧
           r.getD j false = true)) := by
      constructor
      · rintro ⟨j, hj, h1, h2⟩
        cases j with
        | zero =>
          left
          simp only [List.getD_cons_zero] at h1 h2
          exact ⟨by omega, h1, h2⟩
        | succ j' =>
          right
          refine ⟨j', by omega, ?_, ?_⟩
          · simpa using h1
          · simpa using h2
      · rintro (⟨hi, hp, hb⟩ | ⟨j, hj, h1, h2⟩)
        · exact ⟨0, by omega, by simp [hp], by simp [hb]⟩
        · refine ⟨j + 1, by omega, ?_, ?_⟩
          · simpa using h1
          · simpa using h2
    rw [hsplit]
    rcases prev with _ | _ <;> rcases b with _ | _ <;>
      simp [upIdxsAux, ih]

theorem mem_downIdxsAux (rest : List Bool) : ∀ (prev : Bool) (k i : Nat),
    i ∈ downIdxsAux prev k rest ↔
      ∃ j, i = k + j ∧ (prev :: rest).getD j false = true ∧
        rest.getD j true = false := by
  induction rest with
  | nil => intro prev k i; simp [downIdxsAux]
  | cons b r ih =>
    intro prev k i
    have hsplit : (∃ j, i = k + j ∧ (prev :: b :: r).getD j false = true ∧
        (b :: r).getD j true = false) ↔
        ((i = k ∧ prev = true ∧ b = false) ∨
         (∃ j, i = (k + 1) + j ∧ (b :: r).getD j false = true ∧
           r.getD j true = false)) := by
      constructor
      · rintro ⟨j, hj, h1, h2⟩
        cases j with
        | zero =>
          left
          simp only [List.getD_cons_zero] at h1 h2
          exact ⟨by omega, h1, h2⟩
        | succ j' =>
          right
          refine ⟨j', by omega, ?_, ?_⟩
          · simpa using h1
          · simpa using h2
      · rintro (⟨hi, hp, hb⟩ | ⟨j, hj, h1, h2⟩)
        · exact ⟨0, by omega, by simp [hp], by simp [hb]⟩
        · refine ⟨j + 1, by omega, ?_, ?_⟩
          · simpa using h1
          · simpa using h2
    rw [hsplit]
    rcases prev with _ | _ <;> rcases b with _ | _ <;>
      simp [downIdxsAux, ih]

theorem mem_upIdxs (s : List Bool) (i : Nat) :
    i ∈ upIdxs s ↔ TransitionUpAt s i := by
  match s with
  | [] => simp [upIdxs, TransitionUpAt]
  | b :: rest =>
    rw [upIdxs, mem_upIdxsAux]
    unfold TransitionUpAt
    constructor
    · rintro ⟨j, hj, h1, h2⟩
      have hi : i = j + 1 := by omega
      subst hi
      refine ⟨by omega, by simpa using h1, by simpa using h2⟩
    · rintro ⟨h0, h1, h2⟩
      refine ⟨i - 1, by omega, by simpa using h1, ?_⟩
      have hi : i = (i - 1) + 1 := by omega
      rw [hi] at h2
      simpa using h2

theorem mem_downIdxs (s : List Bool) (i : Nat) :
    i ∈ downIdxs s ↔ TransitionDownAt s i := by
  match s with
  | [] => simp [downIdxs, TransitionDownAt]
  | b :: rest =>
    rw [downIdxs, mem_downIdxsAux]
    unfold TransitionDownAt
    constructor
    · rintro ⟨j, hj, h1, h2⟩
      have hi : i = j + 1 := by omega
      subst hi
      refine ⟨by omega, by simpa using h1, by simpa using h2⟩
    · rintro ⟨h0, h1, h2⟩
      refine ⟨i - 1, by omega, by simpa using h1, ?_⟩
      have hi : i = (i - 1) + 1 := by omega
      rw [hi] at h2
      simpa using h2

/-- Every recorded transition index is at least the running index. -/
theorem mem_upIdxsAux_lb (rest : List Bool) : ∀ (prev : Bool) (k i : Nat),
    i ∈ upIdxsAux prev k rest → k ≤ i := by
  induction rest with
  | nil => intro prev k i h; simp [upIdxsAux] at h
  | cons b r ih =>
    intro prev k i h
    rcases prev with _ | _ <;> rcases b with _ | _ <;>
      simp only [upIdxsAux, List.mem_cons] at h
    · have := ih false (k + 1) i h; omega
    · rcases h with h | h
      · omega
      · have := ih true (k + 1) i h; omega
    · have := ih false (k + 1) i h; omega
    · have := ih true (k + 1) i h; omega

theorem mem_downIdxsAux_lb (rest : List Bool) : ∀ (prev : Bool) (k i : Nat),
    i ∈ downIdxsAux prev k rest → k ≤ i := by
  induction rest with
  | nil => intro prev k i h; simp [downIdxsAux] at h
  | cons b r ih =>
    intro prev k i h
    rcases prev with _ | _ <;> rcases b with _ | _ <;>
      simp only [downIdxsAux, List.mem_cons] at h
    · have := ih false (k + 1) i h; omega
    · have := ih true (k + 1) i h; omega
    · rcases h with h | h
      · omega
      · have := ih false (k + 1) i h; omega
    · have := ih true (k + 1) i h; omega

/-- The scanner discard `[1:]` coincides, for a sequence that starts with a
marker, with keeping exactly the marker → non-marker transitions that are
preceded by some recorded non-marker → marker transition. -/
theorem downs_drop_filter (rest : List Bool) : ∀ k : Nat,
    ((downIdxsAux true k rest).drop 1 =
      (downIdxsAux true k rest).filter
        (fun d => (upIdxsAux true k rest).any (fun u => u < d))) ∧
    ((downIdxsAux false k rest) =
      (downIdxsAux false k rest).filter
        (fun d => (upIdxsAux false k rest).any (fun u => u < d))) := by
  induction rest with
  | nil => intro k; simp [downIdxsAux, upIdxsAux]
  | cons b r ih =>
    intro k
    constructor
    · rcases b with _ | _
      · simp only [downIdxsAux, upIdxsAux, List.drop_one, List.tail_cons]
        rw [List.filter_cons]
        have hk : ((upIdxsAux false (k + 1) r).any
            (fun u => decide (u < k))) = false := by
          rw [List.any_eq_false]
          intro u hu
          have := mem_upIdxsAux_lb r false (k + 1) u hu
          simp only [decide_eq_true_eq]
          omega
        simp only [hk, Bool.false_eq_true, if_false]
        exact (ih (k + 1)).2
      · simp only [downIdxsAux, upIdxsAux]
        exact (ih (k + 1)).1
    · rcases b with _ | _
      · simp only [downIdxsAux, upIdxsAux]
        exact (ih (k + 1)).2
      · simp only [downIdxsAux, upIdxsAux]
        rw [eq_comm, List.filter_eq_self]
        intro d hd
        have := mem_downIdxsAux_lb r true (k + 1) d hd
        have hlt : k < d := by omega
        simp [List.any_cons, hlt]

/-- Counting: starting from a non-marker line there are at least as many
recorded ups as downs; starting from a marker line, at most one extra down. -/
theorem downs_le_ups (rest : List Bool) : ∀ k : Nat,
    (downIdxsAux false k rest).length ≤ (upIdxsAux false k rest).length ∧
    (downIdxsAux true k rest).length ≤ (upIdxsAux true k rest).length + 1 := by
  induction rest with
  | nil => intro k; simp [downIdxsAux, upIdxsAux]
  | cons b r ih =>
    intro k
    rcases b with _ | _
    · constructor
      · simp only [downIdxsAux, upIdxsAux]
        exact (ih (k + 1)).1
      · simp only [downIdxsAux, upIdxsAux, List.length_cons]
        have := (ih (k + 1)).1
        omega
    · constructor
      · simp only [downIdxsAux, upIdxsAux, List.length_cons]
        have := (ih (k + 1)).2
        omega
      · simp only [downIdxsAux, upIdxsAux]
        exact (ih (k + 1)).2

/-- If some later line is a marker, scanning from a non-marker start records
at least one up transition. -/
theorem ups_ne_nil (rest : List Bool) : ∀ k : Nat,
    (∃ x ∈ rest, x = true) → upIdxsAux false k rest ≠ [] := by
  induction rest with
  | nil => intro k h; simp at h
  | cons b r ih =>
    intro k h
    rcases b with _ | _
    · simp only [upIdxsAux]
      refine ih (k + 1) ?_
      simpa using h
    · simp [upIdxsAux]

/-! ## Facts about `scanSections` and error propagation -/

/-- Unfolding a successful scan. -/
theorem scanSections_ok {doc : List Line} {s : Sections}
    (h : scanSections doc = .ok s) :
    sectionBegins doc ≠ [] ∧ s.begins = sectionBegins doc ∧
      s.mids = sectionMids doc ∧ s.ends = sectionEnds doc ∧
      (sectionBegins doc).length = (sectionMids doc).length := by
  unfold scanSections at h
  by_cases hb : sectionBegins doc = []
  · rw [if_pos hb] at h
    exact absurd h (by simp)
  · rw [if_neg hb] at h
    by_cases hl : (sectionBegins doc).length = (sectionMids doc).length
    · rw [if_pos hl] at h
      cases h
      exact ⟨hb, rfl, rfl, rfl, hl⟩
    · rw [if_neg hl] at h
      exact absurd h (by simp)

/-- A scan failure aborts the whole parse with the same error, before any
section is dispatched (the dispatch loop lives strictly after the bind on
`scanSections` inside `globalStage`). -/
theorem parse_err_of_scan_err {doc : List Line} {e : String}
    (h : scanSections doc = .error e) : parsePropaceos doc = .error e := by
  unfold parsePropaceos globalStage
  rw [h]
  rfl

/-! ## C1: the Section Scanner -/

/-- C1: the Section Scanner classifies a line as a marker exactly when the
regex `\*+\s+.*` matches the raw line; `section_begin` collects exactly the
non-marker → marker transitions; the marker → non-marker transitions are
characterised likewise, and (for a document that begins with a marker block,
the only kind the scanner accepts) `section_mid` keeps exactly the downward
transitions preceded by a recorded section begin — each recorded section's
body start.  Each section's end is the begin of the next section and the
last section ends at the document end. -/
theorem C1_section_scanner :
    (∀ l : List Char, isMarker l = true ↔ MarkerRegex l) ∧
    (∀ (doc : List Line) (i : Nat),
      i ∈ sectionBegins doc ↔ TransitionUpAt (starsOf doc) i) ∧
    (∀ (doc : List Line) (i : Nat),
      i ∈ downIdxs (starsOf doc) ↔ TransitionDownAt (starsOf doc) i) ∧
    (∀ doc : List Line, isMarkerS (doc.headD "") = true →
      sectionMids doc = (downIdxs (starsOf doc)).filter
        (fun d => (sectionBegins doc).any (fun u => u < d))) ∧
    (∀ (doc : List Line) (s : Sections), scanSections doc = .ok s →
      (∀ k, k + 1 < s.begins.length →
        s.ends.getD k 0 = s.begins.getD (k + 1) 0) ∧
      s.ends.getD (s.begins.length - 1) 0 = doc.length) := by
  refine ⟨isMarker_iff_regex, ?_, ?_, ?_, ?_⟩
  · intro doc i
    exact mem_upIdxs (starsOf doc) i
  · intro doc i
    exact mem_downIdxs (starsOf doc) i
  · intro doc hm
    match doc with
    | [] => simp [isMarkerS, isMarker] at hm
    | l :: ls =>
      have hl : isMarkerS l = true := by simpa using hm
      unfold sectionMids sectionBegins
      have hs : starsOf (l :: ls) = true :: starsOf ls := by
        simp [starsOf, hl]
      rw [hs]
      unfold downIdxs upIdxs
      exact (downs_drop_filter (starsOf ls) 1).1
  · intro doc s h
    obtain ⟨hb, h1, h2, h3, _⟩ := scanSections_ok h
    match hbe : sectionBegins doc with
    | [] => exact absurd hbe hb
    | x :: tl =>
      have hends : s.ends = tl ++ [doc.length] := by
        rw [h3]
        unfold sectionEnds
        rw [if_neg hb, hbe]
        simp
      constructor
      · intro k hk
        rw [h1, hbe] at hk ⊢
        rw [hends]
        simp only [List.length_cons] at hk
        rw [List.getD_append _ _ _ _ (by simpa using by omega)]
        simp [List.getD_cons_succ]
      · rw [hends, h1, hbe]
        simp only [List.length_cons, Nat.add_sub_cancel]
        rw [List.getD_append_right _ _ _ _ (le_refl _)]
        simp

/-- C1 witness: the marker regex on a concrete line, and the boundary lists
of a concrete two-section document. -/
theorem C1_section_scanner_witness :
    MarkerRegex ("** x".data) ∧
    (2 ∈ sectionBegins ["* h", "a", "* g", "b"]) ∧
    (TransitionDownAt (starsOf ["* h", "a", "* g", "b"]) 1) ∧
    sectionMids ["* h", "a", "* g", "b"] = [3] ∧
    (Sections.ends ⟨[2], [3], [4]⟩).getD 0 0 = 4 := by
  refine ⟨(C1_section_scanner.1 _).mp (by decide), ?_, ?_, ?_, ?_⟩
  · exact (C1_section_scanner.2.1 ["* h", "a", "* g", "b"] 2).mpr (by decide)
  · exact (C1_section_scanner.2.2.1 ["* h", "a", "* g", "b"] 1).mp (by decide)
  · have h := C1_section_scanner.2.2.2.1 ["* h", "a", "* g", "b"] (by decide)
    rw [h]
    decide
  · exact (C1_section_scanner.2.2.2.2 ["* h", "a", "* g", "b"] ⟨[2], [3], [4]⟩
      (by decide)).2

/-! ## C10: a document must begin with a marker block -/

/-- With no marker line ahead, the up scan from a non-marker state records
nothing. -/
theorem ups_nil_of_no_true (rest : List Bool) : ∀ k : Nat,
    (∀ x ∈ rest, x = false) → upIdxsAux false k rest = [] := by
  induction rest with
  | nil => intro k _; rfl
  | cons b r ih =>
    intro k h
    have hb : b = false := h b (by simp)
    subst hb
    simp only [upIdxsAux]
    exact ih (k + 1) (fun x hx => h x (by simp [hx]))

/-- C10: when the first line is not a marker but some line is, the discarded
first downward transition leaves `section_mid` strictly shorter than
`section_begin`, the count check fails, and the parse aborts; consequently a
successful scan forces the first line to be a marker. -/
theorem C10_marker_start_required :
    (∀ doc : List Line, doc ≠ [] → isMarkerS (doc.headD "") = false →
      (∃ l ∈ doc, isMarkerS l = true) →
      (sectionMids doc).length < (sectionBegins doc).length ∧
      ∃ e, scanSections doc = .error e ∧ parsePropaceos doc = .error e) ∧
    (∀ (doc : List Line) (s : Sections), scanSections doc = .ok s →
      isMarkerS (doc.headD "") = true) := by
  have main : ∀ doc : List Line, doc ≠ [] → isMarkerS (doc.headD "") = false →
      (∃ l ∈ doc, isMarkerS l = true) →
      (sectionMids doc).length < (sectionBegins doc).length := by
    intro doc hne hm hex
    match doc with
    | l :: ls =>
      have hl : isMarkerS l = false := by simpa using hm
      have hs : starsOf (l :: ls) = false :: starsOf ls := by
        simp [starsOf, hl]
      have hmids : sectionMids (l :: ls) =
          (downIdxsAux false 1 (starsOf ls)).drop 1 := by
        unfold sectionMids
        rw [hs]
        rfl
      have hbeg : sectionBegins (l :: ls) =
          upIdxsAux false 1 (starsOf ls) := by
        unfold sectionBegins
        rw [hs]
        rfl
      rw [hmids, hbeg]
      have hup : upIdxsAux false 1 (starsOf ls) ≠ [] := by
        refine ups_ne_nil (starsOf ls) 1 ?_
        obtain ⟨x, hx, hxm⟩ := hex
        rcases List.mem_cons.mp hx with rfl | hx'
        · rw [hxm] at hl
          simp at hl
        · exact ⟨isMarkerS x, by simpa [starsOf] using List.mem_map_of_mem isMarkerS hx', hxm⟩
      have hcnt := (downs_le_ups (starsOf ls) 1).1
      have hpos : 0 < (upIdxsAux false 1 (starsOf ls)).length :=
        List.length_pos.mpr hup
      rw [List.length_drop]
      omega
  constructor
  · intro doc hne hm hex
    refine ⟨main doc hne hm hex, ?_⟩
    unfold scanSections
    by_cases hb : sectionBegins doc = []
    · rw [if_pos hb]
      exact ⟨errIndex, rfl, parse_err_of_scan_err (by
        unfold scanSections
        rw [if_pos hb])⟩
    · rw [if_neg hb]
      have hlt := main doc hne hm hex
      rw [if_neg (by omega)]
      exact ⟨errValue, rfl, parse_err_of_scan_err (by
        unfold scanSections
        rw [if_neg hb, if_neg (by omega)])⟩
  · intro doc s h
    by_contra hnm
    have hm : isMarkerS (doc.headD "") = false := by
      simpa using hnm
    obtain ⟨hb, _, _, _, hlen⟩ := scanSections_ok h
    match doc with
    | [] =>
      exact hb (by simp [sectionBegins, starsOf, upIdxs])
    | l :: ls =>
      by_cases hex : ∃ x ∈ (l :: ls), isMarkerS x = true
      · have := main (l :: ls) (by simp) hm hex
        omega
      · refine hb ?_
        have hl0 : isMarkerS l = false := by simpa using hm
        have hall : starsOf (l :: ls) = false :: starsOf ls := by
          simp [starsOf, hl0]
        have hnone : ∀ x ∈ starsOf ls, x = false := by
          intro x hx
          simp only [starsOf, List.mem_map] at hx
          obtain ⟨a, ha, rfl⟩ := hx
          by_contra hxx
          exact hex ⟨a, by simp [ha], by simpa using hxx⟩
        have : sectionBegins (l :: ls) = upIdxsAux false 1 (starsOf ls) := by
          unfold sectionBegins
          rw [hall]
          rfl
        rw [this]
        exact ups_nil_of_no_true (starsOf ls) 1 hnone

/-- C10 witness. -/
theorem C10_witness :
    (sectionMids ["a", "* x", "b"]).length <
      (sectionBegins ["a", "* x", "b"]).length ∧
    parsePropaceos ["a", "* x", "b"] = .error errValue := by
  obtain ⟨hlt, e, hscan, hparse⟩ :=
    C10_marker_start_required.1 ["a", "* x", "b"] (by decide) (by decide)
      ⟨"* x", by decide, by decide⟩
  have he : e = errValue := by
    have : scanSections ["a", "* x", "b"] = .error errValue := by decide
    rw [this] at hscan
    simpa using hscan.symm
  exact ⟨hlt, he ▸ hparse⟩

/-! ## C4: boundary count check before dispatch -/

/-- C4: for every document the scan either succeeds with equal
begin/mid/end counts, or the whole parse aborts with the scanner's own
structural error (`IndexError` from `section_end[-1]` on an empty begin
list, or `ValueError` from the ragged `np.concatenate`/explicit check) —
the dispatch loop is sequenced strictly after the scan, so no section is
dispatched in the error case. -/
theorem C4_boundary_counts (doc : List Line) :
    (∃ s, scanSections doc = .ok s ∧
      s.begins.length = s.mids.length ∧ s.mids.length = s.ends.length) ∨
    (∃ e, scanSections doc = .error e ∧ (e = errIndex ∨ e = errValue) ∧
      parsePropaceos doc = .error e) := by
  by_cases hb : sectionBegins doc = []
  · right
    have hscan : scanSections doc = .error errIndex := by
      unfold scanSections
      rw [if_pos hb]
    exact ⟨errIndex, hscan, Or.inl rfl, parse_err_of_scan_err hscan⟩
  · by_cases hl : (sectionBegins doc).length = (sectionMids doc).length
    · left
      refine ⟨⟨sectionBegins doc, sectionMids doc, sectionEnds doc⟩, ?_, hl, ?_⟩
      · unfold scanSections
        rw [if_neg hb, if_pos hl]
      · unfold sectionEnds
        rw [if_neg hb]
        have hpos : 0 < (sectionBegins doc).length := List.length_pos.mpr hb
        simp only [List.length_append, List.length_drop]
        simp only [List.length_singleton]
        omega
    · right
      have hscan : scanSections doc = .error errValue := by
        unfold scanSections
        rw [if_neg hb, if_neg hl]
      exact ⟨errValue, hscan, Or.inr rfl, parse_err_of_scan_err hscan⟩

/-! ## C5: the grid parser -/

/-- C5 (amended): the grid parser implements exactly the claimed algorithm
with "blank" read as "empty": skip the EMPTY lines, take the first remaining
line as the temperature count `N_t`, the next `ceil(N_t/10)` lines as the
temperature array, the following line as the density count, the next
`ceil(N_n/10)` lines as the density array; a non-numeric count line raises
`ValueError`. -/
theorem C5_grid_reader (tbl : Table) (txt : List Line) (tag : String) :
    _parse_grid tbl txt tag = gridSpec blankEmpty tbl txt tag := by
  unfold _parse_grid gridSpec
  congr 1
  apply List.filter_congr
  intro el _
  simp [blankEmpty]

/-- C5 counterexample: a body whose first line is whitespace-only (blank but
not empty).  The claim (first NON-BLANK line is the count) predicts the
parse succeeds with counts 1 and 1; the code feeds the whitespace-only line
to `int()`, which raises `ValueError`. -/
theorem C5_counterexample :
    _parse_grid [] [" ", "1", "5.0", "1", "6.0"] "eos" =
      .error (errIntLit " ") ∧
    gridSpec blankWs [] [" ", "1", "5.0", "1", "6.0"] "eos" =
      .ok [("N_temp_eos", Val.i 1), ("temp_eos", Val.r1 [5]),
           ("N_nion_eos", Val.i 1), ("nion_eos", Val.r1 [6])] := by
  constructor
  · decide
  · exact of_decide_eq_true (by with_unfolding_all rfl)

/-! ## C6: the header classifier -/

/-- Every character of the collapsed string comes from the input or is the
space substituted for a whitespace run. -/
theorem mem_collapseWsAux (l : List Char) : ∀ (prev : Bool) (c : Char),
    c ∈ collapseWsAux prev l → c ∈ l ∨ c = ' ' := by
  induction l with
  | nil => intro prev c h; simp [collapseWsAux] at h
  | cons x r ih =>
    intro prev c h
    rw [collapseWsAux] at h
    by_cases hx : isWs x = true
    · rw [if_pos hx] at h
      rcases prev with _ | _
      · simp only [List.mem_append] at h
        rcases h with h | h
        · right
          simpa using h
        · rcases ih true c h with h' | h'
          · exact Or.inl (by simp [h'])
          · exact Or.inr h'
      · simp only [List.nil_append] at h
        rcases ih true c h with h' | h'
        · exact Or.inl (by simp [h'])
        · exact Or.inr h'
    · rw [if_neg hx] at h
      rcases List.mem_cons.mp h with rfl | h'
      · exact Or.inl (by simp)
      · rcases ih false c h' with h'' | h''
        · exact Or.inl (by simp [h''])
        · exact Or.inr h''

/-- In the `prev = true` state the next emitted character is not whitespace. -/
theorem collapseWsAux_head_not_ws (l : List Char) :
    ∀ c, (collapseWsAux true l).head? = some c → isWs c = false := by
  induction l with
  | nil => intro c h; simp [collapseWsAux] at h
  | cons x r ih =>
    intro c h
    rw [collapseWsAux] at h
    by_cases hx : isWs x = true
    · rw [if_pos hx] at h
      simpa using ih c (by simpa using h)
    · rw [if_neg hx] at h
      simp only [List.head?_cons, Option.some.injEq] at h
      subst h
      simpa using hx

/-- The collapsed string never contains two adjacent whitespace characters. -/
theorem collapseWsAux_chain (l : List Char) : ∀ prev : Bool,
    List.Chain' (fun a b => ¬(isWs a = true ∧ isWs b = true))
      (collapseWsAux prev l) := by
  induction l with
  | nil => intro prev; simp [collapseWsAux]
  | cons x r ih =>
    intro prev
    rw [collapseWsAux]
    by_cases hx : isWs x = true
    · rw [if_pos hx]
      rcases prev with _ | _
      · simp only [Bool.false_eq_true, if_false, List.singleton_append]
        rw [List.chain'_cons']
        refine ⟨?_, ih true⟩
        intro b hb
        rintro ⟨_, hwb⟩
        rw [collapseWsAux_head_not_ws r b hb] at hwb
        simp at hwb
      · simpa only [if_pos rfl, List.nil_append] using ih true
    · rw [if_neg hx]
      rw [List.chain'_cons']
      refine ⟨?_, ih false⟩
      intro b _
      rintro ⟨hwx, _⟩
      exact hx hwx

/-- Collapsing whitespace preserves the non-whitespace characters in order. -/
theorem collapseWsAux_content (l : List Char) : ∀ prev : Bool,
    (collapseWsAux prev l).filter (fun c => !isWs c) =
      l.filter (fun c => !isWs c) := by
  induction l with
  | nil => intro prev; simp [collapseWsAux]
  | cons x r ih =>
    intro prev
    rw [collapseWsAux, List.filter_cons]
    by_cases hx : isWs x = true
    · rw [if_pos hx]
      have hxf : (!isWs x) = false := by simp [hx]
      rw [hxf]
      simp only [Bool.false_eq_true, if_false]
      rcases prev with _ | _
      · simp only [Bool.false_eq_true, if_false, List.singleton_append,
          List.filter_cons]
        have : (!isWs ' ') = false := by decide
        rw [this]
        simp only [Bool.false_eq_true, if_false]
        exact ih true
      · simpa only [if_pos rfl, List.nil_append] using ih true
    · rw [if_neg hx]
      have hxf : (!isWs x) = true := by simp [hx]
      rw [List.filter_cons, hxf]
      simp only [if_true]
      rw [ih false]

/-- First-match decomposition of `List.find?`. -/
theorem find?_first_match {α : Type} (p : α → Bool) (l : List α) (a : α)
    (h : l.find? p = some a) :
    p a = true ∧ ∃ pre post, l = pre ++ a :: post ∧
      ∀ b ∈ pre, p b = false := by
  induction l with
  | nil => simp at h
  | cons x xs ih =>
    rw [List.find?_cons] at h
    by_cases hx : p x = true
    · rw [hx] at h
      simp only [Option.some.injEq] at h
      subst h
      exact ⟨hx, [], xs, rfl, by simp⟩
    · rw [Bool.not_eq_true] at hx
      rw [hx] at h
      obtain ⟨hp, pre, post, rfl, hpre⟩ := ih h
      refine ⟨hp, x :: pre, post, rfl, ?_⟩
      intro b hb
      rcases List.mem_cons.mp hb with rfl | hb'
      · exact hx
      · exact hpre b hb'

/-- C6: the Header Classifier first deletes every asterisk and collapses
each whitespace run of the concatenated header lines to a single space
(the normalized header contains no asterisk, no two adjacent whitespace
characters, and the same non-whitespace characters in order as the
asterisk-stripped input); classification tests substring containment
against the priority-ordered keyword table, the first match wins (no entry
before it matches), a section with no matching keyword yields `none`, and
such a section is skipped silently — the dispatch succeeds leaving the
table untouched. -/
theorem C6_header_classifier :
    (∀ hdr : List Line,
      ('*' ∉ _parse_header hdr) ∧
      List.Chain' (fun a b => ¬(isWs a = true ∧ isWs b = true))
        (_parse_header hdr) ∧
      (_parse_header hdr).filter (fun c => !isWs c) =
        ((String.join hdr).data.filter (fun c => c ≠ '*')).filter
          (fun c => !isWs c)) ∧
    (∀ (hdr : List Char) (kw : String) (k : ActKind),
      classify hdr = some (kw, k) →
      containsSub kw.data hdr = true ∧
      ∃ pre post, actions = pre ++ (kw, k) :: post ∧
        ∀ b ∈ pre, containsSub b.1.data hdr = false) ∧
    (∀ hdr : List Char,
      classify hdr = none ↔ ∀ a ∈ actions, containsSub a.1.data hdr = false) ∧
    (∀ (tbl : Table) (hdrLines bodyLines : List Line),
      classify (_parse_header hdrLines) = none →
      processSection tbl hdrLines bodyLines = .ok tbl) := by
  refine ⟨?_, ?_, ?_, ?_⟩
  · intro hdr
    refine ⟨?_, collapseWsAux_chain _ false, collapseWsAux_content _ false⟩
    intro hmem
    rcases mem_collapseWsAux _ false '*' hmem with h | h
    · simp at h
    · simp at h
  · intro hdr kw k h
    obtain ⟨hp, pre, post, heq, hpre⟩ := find?_first_match _ actions (kw, k) h
    exact ⟨hp, pre, post, heq, hpre⟩
  · intro hdr
    unfold classify
    rw [List.find?_eq_none]
    constructor
    · intro h a ha
      have := h a ha
      simpa using this
    · intro h a ha
      simp [h a ha]
  · intro tbl hdrLines bodyLines h
    unfold processSection
    rw [h]

/-- C6 witness: concrete classifications exercising priority order and the
silent skip. -/
theorem C6_witness :
    ('*' ∉ _parse_header ["***  Int. Rosseland", " Mean Opacity ***"]) ∧
    containsSub "Int. Rosseland Mean Opacity".data
      (_parse_header ["***  Int. Rosseland", " Mean Opacity ***"]) = true ∧
    classify (_parse_header ["*** some decorative banner"]) = none ∧
    processSection [("x", Val.i 0)] ["*** some decorative banner"] ["1.0"] =
      .ok [("x", Val.i 0)] := by
  refine ⟨(C6_header_classifier.1 _).1, ?_, ?_, ?_⟩
  · exact (C6_header_classifier.2.1
      (_parse_header ["***  Int. Rosseland", " Mean Opacity ***"])
      "Int. Rosseland Mean Opacity" (.arr "opr_int") (by decide)).1
  · exact (C6_header_classifier.2.2.1 _).mpr (by decide)
  · exact C6_header_classifier.2.2.2 [("x", Val.i 0)]
      ["*** some decorative banner"] ["1.0"] (by decide)

/-! ## Table lemmas -/

theorem getK_setK_self (t : Table) (k : String) (v : Val) :
    getK (setK t k v) k = some v := by
  induction t with
  | nil => simp [setK, getK]
  | cons p tl ih =>
    rw [setK]
    by_cases h : p.1 = k
    · rw [if_pos h, getK, if_pos rfl]
    · rw [if_neg h, getK, if_neg h]
      exact ih

theorem getK_setK_ne (t : Table) (k k2 : String) (v : Val) (h : k ≠ k2) :
    getK (setK t k v) k2 = getK t k2 := by
  induction t with
  | nil => simp [setK, getK, h]
  | cons p tl ih =>
    rw [setK]
    by_cases hp : p.1 = k
    · rw [if_pos hp, getK, getK, if_neg h, if_neg (hp ▸ h)]
    · rw [if_neg hp, getK, getK]
      by_cases hp2 : p.1 = k2
      · rw [if_pos hp2, if_pos hp2]
      · rw [if_neg hp2, if_neg hp2]
        exact ih

/-- Deleting one key leaves lookups of other keys unchanged. -/
theorem getK_delK_ne (t : Table) (k k2 : String) (h : k ≠ k2) :
    ∀ t', delK t k = .ok t' → getK t' k2 = getK t k2 := by
  induction t with
  | nil => intro t' ht; simp [delK] at ht
  | cons p tl ih =>
    intro t' ht
    rw [delK] at ht
    by_cases hp : p.1 = k
    · rw [if_pos hp] at ht
      cases ht
      rw [getK, if_neg (hp ▸ h)]
    · rw [if_neg hp] at ht
      match htl : delK tl k with
      | .error e => rw [htl] at ht; simp [Except.map] at ht
      | .ok tl' =>
        rw [htl] at ht
        simp only [Except.map] at ht
        cases ht
        rw [getK, getK]
        by_cases hp2 : p.1 = k2
        · rw [if_pos hp2, if_pos hp2]
        · rw [if_neg hp2, if_neg hp2]
          exact ih tl' htl

/-- With duplicate-free keys, a deleted key is gone. -/
theorem getK_delK_self (t : Table) (k : String)
    (hnd : (t.map Prod.fst).Nodup) :
    ∀ t', delK t k = .ok t' → getK t' k = none := by
  induction t with
  | nil => intro t' ht; simp [delK] at ht
  | cons p tl ih =>
    intro t' ht
    rw [delK] at ht
    by_cases hp : p.1 = k
    · rw [if_pos hp] at ht
      cases ht
      -- p.1 = k does not occur in tl
      have hnotin : k ∉ tl.map Prod.fst := by
        rw [List.map_cons, List.nodup_cons] at hnd
        exact hp ▸ hnd.1
      clear ih hnd hp
      induction tl with
      | nil => rfl
      | cons q tq ihq =>
        rw [getK]
        rw [List.map_cons, List.mem_cons] at hnotin
        rw [if_neg (fun hq => hnotin (Or.inl hq.symm))]
        exact ihq (fun hmem => hnotin (Or.inr hmem))
    · rw [if_neg hp] at ht
      match htl : delK tl k with
      | .error e => rw [htl] at ht; simp [Except.map] at ht
      | .ok tl' =>
        rw [htl] at ht
        simp only [Except.map] at ht
        cases ht
        rw [getK, if_neg hp]
        refine ih ?_ tl' htl
        rw [List.map_cons, List.nodup_cons] at hnd
        exact hnd.2

/-- A present key can be deleted. -/
theorem delK_ok_of_getK (t : Table) (k : String) (v : Val)
    (h : getK t k = some v) : ∃ t', delK t k = .ok t' := by
  induction t with
  | nil => simp [getK] at h
  | cons p tl ih =>
    rw [getK] at h
    rw [delK]
    by_cases hp : p.1 = k
    · rw [if_pos hp]
      exact ⟨tl, rfl⟩
    · rw [if_neg hp] at h ⊢
      obtain ⟨tl', htl⟩ := ih h
      exact ⟨p :: tl', by rw [htl]; rfl⟩

/-- `setK` does not disturb key distinctness. -/
theorem keys_setK_nodup (t : Table) (k : String) (v : Val)
    (h : (t.map Prod.fst).Nodup) : ((setK t k v).map Prod.fst).Nodup := by
  induction t with
  | nil => simp [setK]
  | cons p tl ih =>
    rw [List.map_cons, List.nodup_cons] at h
    rw [setK]
    by_cases hp : p.1 = k
    · rw [if_pos hp]
      rw [List.map_cons, List.nodup_cons]
      exact ⟨hp ▸ h.1, h.2⟩
    · rw [if_neg hp]
      rw [List.map_cons, List.nodup_cons]
      refine ⟨?_, ih h.2⟩
      intro hmem
      -- k or an old key: membership in keys of setK tl k v
      have : ∀ tl : Table, (htl : (tl.map Prod.fst).Nodup) →
          p.1 ∉ tl.map Prod.fst → p.1 ≠ k →
          p.1 ∉ (setK tl k v).map Prod.fst := by
        clear hmem ih h
        intro tl
        induction tl with
        | nil =>
          intro _ _ hne
          simpa [setK] using hne
        | cons q tq ihq =>
          intro htl hnot hne
          rw [setK]
          by_cases hq : q.1 = k
          · rw [if_pos hq]
            rw [List.map_cons, List.mem_cons]
            push_neg
            refine ⟨hne, ?_⟩
            intro hmem2
            refine hnot ?_
            rw [List.map_cons, List.mem_cons]
            exact Or.inr hmem2
          · rw [if_neg hq]
            rw [List.map_cons, List.mem_cons] at hnot ⊢
            push_neg at hnot ⊢
            refine ⟨hnot.1, ?_⟩
            have := ihq (by
              rw [List.map_cons, List.nodup_cons] at htl
              exact htl.2) hnot.2 hne
            intro hcon
            exact this hcon
      exact this tl h.2 h.1 hp hmem

/-- Deletion only removes an entry, so key distinctness survives. -/
theorem keys_delK_nodup (t : Table) (k : String)
    (h : (t.map Prod.fst).Nodup) :
    ∀ t', delK t k = .ok t' → ((t'.map Prod.fst)).Nodup := by
  induction t with
  | nil => intro t' ht; simp [delK] at ht
  | cons p tl ih =>
    intro t' ht
    rw [delK] at ht
    rw [List.map_cons, List.nodup_cons] at h
    by_cases hp : p.1 = k
    · rw [if_pos hp] at ht
      cases ht
      exact h.2
    · rw [if_neg hp] at ht
      match htl : delK tl k with
      | .error e => rw [htl] at ht; simp [Except.map] at ht
      | .ok tl' =>
        rw [htl] at ht
        simp only [Except.map] at ht
        cases ht
        rw [List.map_cons, List.nodup_cons]
        refine ⟨?_, ih h.2 tl' htl⟩
        intro hmem
        refine h.1 ?_
        -- keys of tl' are among keys of tl
        have hsub : ∀ (tl : Table) (tl' : Table), delK tl k = .ok tl' →
            ∀ x, x ∈ tl'.map Prod.fst → x ∈ tl.map Prod.fst := by
          clear hmem htl ih h hp
          intro tl
          induction tl with
          | nil => intro tl' ht; simp [delK] at ht
          | cons q tq ihq =>
            intro tl' ht x hx
            rw [delK] at ht
            by_cases hq : q.1 = k
            · rw [if_pos hq] at ht
              cases ht
              simp only [List.map_cons, List.mem_cons]
              exact Or.inr hx
            · rw [if_neg hq] at ht
              match htq : delK tq k with
              | .error e => rw [htq] at ht; simp [Except.map] at ht
              | .ok tq' =>
                rw [htq] at ht
                simp only [Except.map] at ht
                cases ht
                rw [List.map_cons, List.mem_cons] at hx ⊢
                rcases hx with hx | hx
                · exact Or.inl hx
                · exact Or.inr (ihq tq' htq x hx)
        exact hsub tl tl' htl p.1 hmem

/-! ## C2: QEOS-point removal -/

theorem maskFilter_length {α : Type} (mask : List Bool) :
    ∀ rows : List α, rows.length = mask.length →
    (maskFilter mask rows).length = (mask.filter id).length := by
  induction mask with
  | nil =>
    intro rows h
    match rows, h with
    | [], _ => rfl
  | cons b ms ih =>
    intro rows h
    match rows, h with
    | r :: rs, h =>
      have h' : rs.length = ms.length := by simpa using h
      rcases b with _ | _
      · simpa [maskFilter, List.filter_cons] using ih rs h'
      · simpa [maskFilter, List.filter_cons] using ih rs h'

/-- The number of `True`s in `np.in1d(es, os)` is the number of `es`-entries
lying in `os`. -/
theorem in1d_true_count (es os : List ℚ) :
    ((np_in1d es os).filter id).length =
      (es.filter (fun x => decide (x ∈ os))).length := by
  unfold np_in1d
  rw [List.filter_map, List.length_map]
  rfl

/-- For duplicate-free grids with `os ⊆ es`, exactly `os.length` entries of
`es` lie in `os`. -/
theorem filter_mem_length (es os : List ℚ) (hes : es.Nodup) (hos : os.Nodup)
    (hsub : ∀ o ∈ os, o ∈ es) :
    (es.filter (fun x => decide (x ∈ os))).length = os.length := by
  have h1 : List.Subperm (es.filter (fun x => decide (x ∈ os))) os := by
    refine List.Nodup.subperm (hes.filter _) ?_
    intro x hx
    rw [List.mem_filter] at hx
    simpa using hx.2
  have h2 : List.Subperm os (es.filter (fun x => decide (x ∈ os))) := by
    refine List.Nodup.subperm hos ?_
    intro o ho
    rw [List.mem_filter]
    exact ⟨hsub o ho, by simpa using ho⟩
  exact le_antisymm h1.length_le h2.length_le

/-- Masking maps the leading dimension from the mask length to the number
of `True`s. -/
theorem maskVal_leadDim (mask : List Bool) (v v2 : Val)
    (h : maskVal mask v = .ok v2) (hd : leadDim v = some mask.length) :
    leadDim v2 = some ((mask.filter id).length) := by
  match v with
  | .r1 x =>
    simp only [maskVal, Except.ok.injEq] at h
    subst h
    simp only [leadDim, Option.some.injEq] at hd ⊢
    exact maskFilter_length mask x hd
  | .r2 x =>
    simp only [maskVal, Except.ok.injEq] at h
    subst h
    simp only [leadDim, Option.some.injEq] at hd ⊢
    exact maskFilter_length mask x hd
  | .r3 x =>
    simp only [maskVal, Except.ok.injEq] at h
    subst h
    simp only [leadDim, Option.some.injEq] at hd ⊢
    exact maskFilter_length mask x hd
  | .i n => simp [maskVal] at h
  | .s q => simp [maskVal] at h

/-- A value with a leading dimension can be masked. -/
theorem maskVal_ok_of_leadDim (mask : List Bool) (v : Val) (n : Nat)
    (hd : leadDim v = some n) : ∃ v2, maskVal mask v = .ok v2 := by
  match v with
  | .r1 x => exact ⟨_, rfl⟩
  | .r2 x => exact ⟨_, rfl⟩
  | .r3 x => exact ⟨_, rfl⟩
  | .i m => simp [leadDim] at hd
  | .s q => simp [leadDim] at hd

/-- Masking preserves maskability. -/
theorem maskVal_ok_again (mask : List Bool) (v v2 : Val)
    (h : maskVal mask v = .ok v2) : ∃ v3, maskVal mask v2 = .ok v3 := by
  match v with
  | .r1 x =>
    simp only [maskVal, Except.ok.injEq] at h
    subst h
    exact ⟨_, rfl⟩
  | .r2 x =>
    simp only [maskVal, Except.ok.injEq] at h
    subst h
    exact ⟨_, rfl⟩
  | .r3 x =>
    simp only [maskVal, Except.ok.injEq] at h
    subst h
    exact ⟨_, rfl⟩
  | .i n => simp [maskVal] at h
  | .s q => simp [maskVal] at h

/-- Behaviour of the masking loop: with every listed key present and
maskable it succeeds, leaves other keys untouched, and (for distinct keys)
replaces each listed key's value by its masked form. -/
theorem foldMask_spec (mask : List Bool) :
    ∀ (keys : List String) (t : Table),
    (∀ k ∈ keys, ∃ v v2, getK t k = some v ∧ maskVal mask v = .ok v2) →
    ∃ t', keys.foldlM (maskStep mask) t = .ok t' ∧
      (∀ k2, k2 ∉ keys → getK t' k2 = getK t k2) ∧
      (keys.Nodup → ∀ k ∈ keys, ∃ v v2, getK t k = some v ∧
        maskVal mask v = .ok v2 ∧ getK t' k = some v2) := by
  intro keys
  induction keys with
  | nil =>
    intro t _
    exact ⟨t, rfl, fun k2 _ => rfl, by simp⟩
  | cons k ks ih =>
    intro t h
    obtain ⟨v, v2, hv, hm⟩ := h k (by simp)
    have hstep : maskStep mask t k = .ok (setK t k v2) := by
      have h1 : getVal t k = Except.ok v := by simp [getVal, hv]
      show Except.bind (getVal t k)
          (fun w => Except.bind (maskVal mask w)
            (fun w2 => Except.ok (setK t k w2))) = Except.ok (setK t k v2)
      rw [h1]
      show Except.bind (maskVal mask v)
          (fun w2 => Except.ok (setK t k w2)) = Except.ok (setK t k v2)
      rw [hm]
      rfl
    set t1 := setK t k v2 with ht1
    have hks : ∀ k' ∈ ks, ∃ v' v2', getK t1 k' = some v' ∧
        maskVal mask v' = .ok v2' := by
      intro k' hk'
      by_cases hkk : k = k'
      · subst hkk
        obtain ⟨v3, hm3⟩ := maskVal_ok_again mask v v2 hm
        exact ⟨v2, v3, by rw [ht1, getK_setK_self], hm3⟩
      · obtain ⟨v', v2', hv', hm'⟩ := h k' (by simp [hk'])
        exact ⟨v', v2', by rw [ht1, getK_setK_ne t k k' v2 hkk]; exact hv', hm'⟩
    obtain ⟨t', hfold, hpres, hupd⟩ := ih t1 hks
    refine ⟨t', ?_, ?_, ?_⟩
    · rw [List.foldlM_cons, hstep]
      exact hfold
    · intro k2 hk2
      rw [List.mem_cons] at hk2
      push_neg at hk2
      rw [hpres k2 hk2.2, ht1, getK_setK_ne t k k2 v2 (Ne.symm hk2.1)]
    · intro hnd k' hk'
      rw [List.nodup_cons] at hnd
      rcases List.mem_cons.mp hk' with rfl | hk''
      · refine ⟨v, v2, hv, hm, ?_⟩
        rw [hpres k' hnd.1, ht1, getK_setK_self]
      · obtain ⟨v', v2', hv', hm', hres⟩ := hupd hnd.2 k' hk''
        have hne : k ≠ k' := fun hc => hnd.1 (hc ▸ hk'')
        refine ⟨v', v2', ?_, hm', hres⟩
        rw [ht1, getK_setK_ne t k k' v2 hne] at hv'
        exact hv'

/-- Resolving a successful bind in an `Except` chain. -/
theorem bind_ok_out {β γ : Type} {x : Except String β} {a : β}
    (f : β → Except String γ) (h : x = .ok a) : (x >>= f) = f a := by
  subst h
  rfl

/-- C2 (amended): for a parsed table with duplicate-free keys whose density
grids are duplicate-free, each opacity density occurring in the EOS grid,
and every EOS-keyed array carrying leading dimension `len(nion_eos)`:
QEOS-point removal succeeds, every retained EOS-keyed array ends with
leading dimension `len(nion_opac)`, `nion` equals the opacity density grid,
`temp` the opacity temperature grid, and the four separate grid fields are
gone. -/
theorem C2_qeos_removal (tbl : Table) (es os ts : List ℚ) (vte : Val)
    (hnd : (tbl.map Prod.fst).Nodup)
    (hes : getK tbl "nion_eos" = some (.r1 es))
    (hos : getK tbl "nion_opac" = some (.r1 os))
    (hts : getK tbl "temp_opac" = some (.r1 ts))
    (hte : getK tbl "temp_eos" = some vte)
    (hesnd : es.Nodup) (hosnd : os.Nodup)
    (hsub : ∀ o ∈ os, o ∈ es)
    (harr : ∀ k ∈ qeosMaskKeys, leadDimK tbl k = some es.length) :
    ∃ t', remove_extra_qeos_pt tbl = .ok t' ∧
      (∀ k ∈ qeosMaskKeys, leadDimK t' k = some os.length) ∧
      getK t' "nion" = some (.r1 os) ∧
      getK t' "temp" = some (.r1 ts) ∧
      getK t' "nion_eos" = none ∧ getK t' "nion_opac" = none ∧
      getK t' "temp_eos" = none ∧ getK t' "temp_opac" = none := by
  have hkeys : ∀ k ∈ qeosMaskKeys, k ≠ "nion" ∧ k ≠ "temp" ∧
      k ≠ "nion_opac" ∧ k ≠ "nion_eos" ∧ k ≠ "temp_opac" ∧
      k ≠ "temp_eos" := by decide
  set mask := np_in1d es os with hmaskdef
  -- the successive tables
  set t1 := setK tbl "nion" (.r1 os) with ht1
  set t2 := setK t1 "temp" (.r1 ts) with ht2
  have e1 : getArr1 tbl "nion_eos" = .ok es := by simp [getArr1, hes]
  have e2 : getArr1 tbl "nion_opac" = .ok os := by simp [getArr1, hos]
  have g1ts : getK t1 "temp_opac" = some (.r1 ts) := by
    rw [ht1, getK_setK_ne tbl "nion" "temp_opac" _ (by decide)]
    exact hts
  have e3 : getArr1 t1 "temp_opac" = .ok ts := by simp [getArr1, g1ts]
  have g2opac : getK t2 "nion_opac" = some (.r1 os) := by
    rw [ht2, getK_setK_ne t1 "temp" "nion_opac" _ (by decide), ht1,
      getK_setK_ne tbl "nion" "nion_opac" _ (by decide)]
    exact hos
  obtain ⟨t3, d3⟩ := delK_ok_of_getK t2 "nion_opac" _ g2opac
  have g3eos : getK t3 "nion_eos" = some (.r1 es) := by
    rw [getK_delK_ne t2 "nion_opac" "nion_eos" (by decide) t3 d3, ht2,
      getK_setK_ne t1 "temp" "nion_eos" _ (by decide), ht1,
      getK_setK_ne tbl "nion" "nion_eos" _ (by decide)]
    exact hes
  obtain ⟨t4, d4⟩ := delK_ok_of_getK t3 "nion_eos" _ g3eos
  have g4ts : getK t4 "temp_opac" = some (.r1 ts) := by
    rw [getK_delK_ne t3 "nion_eos" "temp_opac" (by decide) t4 d4,
      getK_delK_ne t2 "nion_opac" "temp_opac" (by decide) t3 d3, ht2,
      getK_setK_ne t1 "temp" "temp_opac" _ (by decide)]
    exact g1ts
  obtain ⟨t5, d5⟩ := delK_ok_of_getK t4 "temp_opac" _ g4ts
  have g5te : getK t5 "temp_eos" = some vte := by
    rw [getK_delK_ne t4 "temp_opac" "temp_eos" (by decide) t5 d5,
      getK_delK_ne t3 "nion_eos" "temp_eos" (by decide) t4 d4,
      getK_delK_ne t2 "nion_opac" "temp_eos" (by decide) t3 d3, ht2,
      getK_setK_ne t1 "temp" "temp_eos" _ (by decide), ht1,
      getK_setK_ne tbl "nion" "temp_eos" _ (by decide)]
    exact hte
  obtain ⟨t6, d6⟩ := delK_ok_of_getK t5 "temp_eos" _ g5te
  -- key distinctness along the chain
  have nd2 : (t2.map Prod.fst).Nodup := by
    rw [ht2, ht1]
    exact keys_setK_nodup _ _ _ (keys_setK_nodup _ _ _ hnd)
  have nd3 : (t3.map Prod.fst).Nodup := keys_delK_nodup t2 _ nd2 t3 d3
  have nd4 : (t4.map Prod.fst).Nodup := keys_delK_nodup t3 _ nd3 t4 d4
  have nd5 : (t5.map Prod.fst).Nodup := keys_delK_nodup t4 _ nd4 t5 d5
  have nd6 : (t6.map Prod.fst).Nodup := keys_delK_nodup t5 _ nd5 t6 d6
  -- the four grid fields are gone in t6
  have gone_opac : getK t6 "nion_opac" = none := by
    rw [getK_delK_ne t5 "temp_eos" "nion_opac" (by decide) t6 d6,
      getK_delK_ne t4 "temp_opac" "nion_opac" (by decide) t5 d5,
      getK_delK_ne t3 "nion_eos" "nion_opac" (by decide) t4 d4]
    exact getK_delK_self t2 "nion_opac" nd2 t3 d3
  have gone_eos : getK t6 "nion_eos" = none := by
    rw [getK_delK_ne t5 "temp_eos" "nion_eos" (by decide) t6 d6,
      getK_delK_ne t4 "temp_opac" "nion_eos" (by decide) t5 d5]
    exact getK_delK_self t3 "nion_eos" nd3 t4 d4
  have gone_tsop : getK t6 "temp_opac" = none := by
    rw [getK_delK_ne t5 "temp_eos" "temp_opac" (by decide) t6 d6]
    exact getK_delK_self t4 "temp_opac" nd4 t5 d5
  have gone_te : getK t6 "temp_eos" = none := getK_delK_self t5 "temp_eos" nd5 t6 d6
  -- `nion`/`temp` survive to t6
  have keep_nion : getK t6 "nion" = some (.r1 os) := by
    rw [getK_delK_ne t5 "temp_eos" "nion" (by decide) t6 d6,
      getK_delK_ne t4 "temp_opac" "nion" (by decide) t5 d5,
      getK_delK_ne t3 "nion_eos" "nion" (by decide) t4 d4,
      getK_delK_ne t2 "nion_opac" "nion" (by decide) t3 d3, ht2,
      getK_setK_ne t1 "temp" "nion" _ (by decide), ht1, getK_setK_self]
  have keep_temp : getK t6 "temp" = some (.r1 ts) := by
    rw [getK_delK_ne t5 "temp_eos" "temp" (by decide) t6 d6,
      getK_delK_ne t4 "temp_opac" "temp" (by decide) t5 d5,
      getK_delK_ne t3 "nion_eos" "temp" (by decide) t4 d4,
      getK_delK_ne t2 "nion_opac" "temp" (by decide) t3 d3, ht2, getK_setK_self]
  -- the EOS-keyed arrays are untouched up to t6
  have hpass : ∀ k ∈ qeosMaskKeys, getK t6 k = getK tbl k := by
    intro k hk
    obtain ⟨h1, h2, h3, h4, h5, h6⟩ := hkeys k hk
    rw [getK_delK_ne t5 "temp_eos" k (Ne.symm h6) t6 d6,
      getK_delK_ne t4 "temp_opac" k (Ne.symm h5) t5 d5,
      getK_delK_ne t3 "nion_eos" k (Ne.symm h4) t4 d4,
      getK_delK_ne t2 "nion_opac" k (Ne.symm h3) t3 d3, ht2,
      getK_setK_ne t1 "temp" k _ (Ne.symm h2), ht1,
      getK_setK_ne tbl "nion" k _ (Ne.symm h1)]
  have hmlen : mask.length = es.length := by
    rw [hmaskdef]
    simp [np_in1d]
  have hfoldhyp : ∀ k ∈ qeosMaskKeys, ∃ v v2, getK t6 k = some v ∧
      maskVal mask v = .ok v2 := by
    intro k hk
    have := harr k hk
    unfold leadDimK at this
    match hg : getK tbl k with
    | none => rw [hg] at this; simp at this
    | some v =>
      rw [hg] at this
      rw [Option.some_bind] at this
      obtain ⟨v2, hv2⟩ := maskVal_ok_of_leadDim mask v es.length this
      exact ⟨v, v2, by rw [hpass k hk]; exact hg, hv2⟩
  obtain ⟨t', hfold, hpres, hupd⟩ :=
    foldMask_spec mask qeosMaskKeys t6 hfoldhyp
  have hnod : qeosMaskKeys.Nodup := by decide
  refine ⟨t', ?_, ?_, ?_, ?_, ?_, ?_, ?_, ?_⟩
  · unfold remove_extra_qeos_pt
    rw [bind_ok_out _ e1, bind_ok_out _ e2]
    rw [← ht1]
    rw [bind_ok_out _ e3]
    rw [← ht2, bind_ok_out _ d3, bind_ok_out _ d4, bind_ok_out _ d5,
      bind_ok_out _ d6, ← hmaskdef]
    exact hfold
  · intro k hk
    obtain ⟨v, v2, hv, hm2, hres⟩ := hupd hnod k hk
    unfold leadDimK
    rw [hres, Option.some_bind]
    have hvd : leadDim v = some mask.length := by
      have := harr k hk
      unfold leadDimK at this
      rw [hpass k hk] at hv
      rw [hv] at this
      rw [Option.some_bind] at this
      rw [this, hmlen]
    have := maskVal_leadDim mask v v2 hm2 hvd
    rw [this, hmaskdef, in1d_true_count, filter_mem_length es os hesnd hosnd hsub]
  · rw [hpres "nion" (by decide)]
    exact keep_nion
  · rw [hpres "temp" (by decide)]
    exact keep_temp
  · rw [hpres "nion_eos" (by decide)]
    exact gone_eos
  · rw [hpres "nion_opac" (by decide)]
    exact gone_opac
  · rw [hpres "temp_eos" (by decide)]
    exact gone_te
  · rw [hpres "temp_opac" (by decide)]
    exact gone_tsop

/-- C2 witness: the amended theorem applied to a concrete table with
`nion_eos = [1, 2]`, `nion_opac = [2]` and seven EOS-keyed arrays of
leading dimension 2. -/
theorem C2_qeos_removal_witness :
    ∃ t', remove_extra_qeos_pt
      [("nion_eos", Val.r1 [1, 2]), ("nion_opac", Val.r1 [2]),
       ("temp_opac", Val.r1 [10]), ("temp_eos", Val.r1 [20]),
       ("eele", Val.r2 [[1], [2]]), ("eion", Val.r2 [[1], [2]]),
       ("eint", Val.r2 [[1], [2]]), ("pele", Val.r2 [[1], [2]]),
       ("pion", Val.r2 [[1], [2]]), ("zbar", Val.r2 [[1], [2]]),
       ("ion_frac", Val.r3 [[[1]], [[2]]])] = .ok t' ∧
      (∀ k ∈ qeosMaskKeys, leadDimK t' k = some 1) ∧
      getK t' "nion" = some (Val.r1 [2]) ∧
      getK t' "temp" = some (Val.r1 [10]) ∧
      getK t' "nion_eos" = none ∧ getK t' "nion_opac" = none ∧
      getK t' "temp_eos" = none ∧ getK t' "temp_opac" = none :=
  C2_qeos_removal _ [1, 2] [2] [10] (Val.r1 [20]) (by decide)
    (of_decide_eq_true (by with_unfolding_all rfl))
    (of_decide_eq_true (by with_unfolding_all rfl))
    (of_decide_eq_true (by with_unfolding_all rfl))
    (of_decide_eq_true (by with_unfolding_all rfl))
    (of_decide_eq_true (by with_unfolding_all rfl))
    (of_decide_eq_true (by with_unfolding_all rfl))
    (of_decide_eq_true (by with_unfolding_all rfl))
    (of_decide_eq_true (by with_unfolding_all rfl))

/-- C2 counterexample: with a duplicated EOS density point (`nion_eos =
[1, 1]`, `nion_opac = [1]`) every opacity density occurs in the EOS grid —
the claim's hypothesis — yet after removal `zbar` keeps leading dimension 2
while `len(nion_opac) = 1`: the claim's leading-dimension equality fails on
the code. -/
theorem C2_counterexample :
    (∀ o ∈ [(1 : ℚ)], o ∈ [(1 : ℚ), 1]) ∧
    Except.map (fun t => leadDimK t "zbar")
      (remove_extra_qeos_pt
        [("nion_eos", Val.r1 [1, 1]), ("nion_opac", Val.r1 [1]),
         ("temp_opac", Val.r1 [10]), ("temp_eos", Val.r1 [20]),
         ("eele", Val.r2 [[1], [2]]), ("eion", Val.r2 [[1], [2]]),
         ("eint", Val.r2 [[1], [2]]), ("pele", Val.r2 [[1], [2]]),
         ("pion", Val.r2 [[1], [2]]), ("zbar", Val.r2 [[1], [2]]),
         ("ion_frac", Val.r3 [[[1]], [[2]]])]) = .ok (some 2) ∧
    [(1 : ℚ)].length = 1 := by
  refine ⟨?_, ?_, rfl⟩
  · exact of_decide_eq_true (by with_unfolding_all rfl)
  · exact of_decide_eq_true (by with_unfolding_all rfl)

/-! ## C3: reshape validation -/

theorem flatK_inv (tbl : Table) (k : String) (flat : List ℚ)
    (h : flatK tbl k = some flat) :
    ∃ v, getK tbl k = some v ∧ flatOf v = .ok flat := by
  unfold flatK at h
  match hg : getK tbl k with
  | none => rw [hg] at h; simp at h
  | some v =>
    rw [hg, Option.some_bind] at h
    match hf : flatOf v with
    | .error e => rw [hf] at h; simp [Except.toOption] at h
    | .ok fl =>
      rw [hf] at h
      simp only [Except.toOption, Option.some.injEq] at h
      exact ⟨v, rfl, by rw [hf, h]⟩

theorem chunksN_length : ∀ (a b : Nat) (l : List ℚ),
    (chunksN a b l).length = a := by
  intro a
  induction a with
  | zero => intro b l; rfl
  | succ a' ih =>
    intro b l
    rw [chunksN]
    simp [ih]

theorem chunksN_rows : ∀ (a b : Nat) (l : List ℚ), l.length = a * b →
    ∀ r ∈ chunksN a b l, r.length = b := by
  intro a
  induction a with
  | zero => intro b l _ r hr; simp [chunksN] at hr
  | succ a' ih =>
    intro b l hl r hr
    rw [chunksN] at hr
    rcases List.mem_cons.mp hr with rfl | hr'
    · rw [List.length_take]
      have hble : b ≤ l.length := by
        rw [hl]
        calc b ≤ (a' + 1) * b := Nat.le_mul_of_pos_left b (Nat.succ_pos a')
          _ = (a' + 1) * b := rfl
      omega
    · refine ih b (l.drop b) ?_ r hr'
      rw [List.length_drop, hl, Nat.succ_mul]
      omega

theorem dimsProd_two (a b : Nat) : dimsProd [(a : Int), (b : Int)] = a * b := by
  simp [dimsProd]

theorem dimsProd_three (a b c : Nat) :
    dimsProd [(a : Int), (b : Int), (c : Int)] = a * (b * c) := by
  simp [dimsProd, Nat.mul_assoc]

theorem npReshape2_eq (v : Val) (flat : List ℚ) (hf : flatOf v = .ok flat)
    (a b : Nat) :
    npReshape v [(a : Int), (b : Int)] =
      if flat.length = a * b then
        .ok (.r2 (chunksN a b flat))
      else .error (reshapeErr flat.length [(a : Int), (b : Int)]) := by
  unfold npReshape
  rw [bind_ok_out _ hf]
  have hall : (([(a : Int), (b : Int)]).all (fun d => decide (0 ≤ d))) = true := by
    simp
  rw [if_pos hall]
  simp

theorem npReshape3_eq (v : Val) (flat : List ℚ) (hf : flatOf v = .ok flat)
    (a b c : Nat) :
    npReshape v [(a : Int), (b : Int), (c : Int)] =
      if flat.length = a * (b * c) then
        .ok (.r3 ((chunksN a (b * c) flat).map (chunksN b c)))
      else .error (reshapeErr flat.length
        [(a : Int), (b : Int), (c : Int)]) := by
  unfold npReshape
  rw [bind_ok_out _ hf]
  have hall : (([(a : Int), (b : Int), (c : Int)]).all
      (fun d => decide (0 ≤ d))) = true := by
    simp
  rw [if_pos hall]
  simp [Nat.mul_assoc]

/-- Successful reshape of a 2-D entry, with its resulting shape. -/
theorem entry_ok2 (tbl : Table) (k : String) (a b : Nat) (flat : List ℚ)
    (hf : flatK tbl k = some flat) (hlen : flat.length = a * b) :
    ∃ v v2, getK tbl k = some v ∧
      npReshape v [(a : Int), (b : Int)] = .ok v2 ∧
      HasShape v2 [(a : Int), (b : Int)] := by
  obtain ⟨v, hv, hfo⟩ := flatK_inv tbl k flat hf
  have he := npReshape2_eq v flat hfo a b
  rw [if_pos hlen] at he
  refine ⟨v, _, hv, he, ?_⟩
  unfold HasShape
  constructor
  · simpa using chunksN_length a b flat
  · intro r hr
    simpa using chunksN_rows a b flat hlen r hr

/-- Successful reshape of a 3-D entry, with its resulting shape. -/
theorem entry_ok3 (tbl : Table) (k : String) (a b c : Nat) (flat : List ℚ)
    (hf : flatK tbl k = some flat) (hlen : flat.length = a * (b * c)) :
    ∃ v v2, getK tbl k = some v ∧
      npReshape v [(a : Int), (b : Int), (c : Int)] = .ok v2 ∧
      HasShape v2 [(a : Int), (b : Int), (c : Int)] := by
  obtain ⟨v, hv, hfo⟩ := flatK_inv tbl k flat hf
  have he := npReshape3_eq v flat hfo a b c
  rw [if_pos hlen] at he
  refine ⟨v, _, hv, he, ?_⟩
  unfold HasShape
  constructor
  · simpa using chunksN_length a (b * c) flat
  · intro blk hblk
    rw [List.mem_map] at hblk
    obtain ⟨row, hrow, rfl⟩ := hblk
    have hrl : row.length = b * c := chunksN_rows a (b * c) flat hlen row hrow
    constructor
    · simpa using chunksN_length b c row
    · intro r hr
      simpa using chunksN_rows b c row hrl r hr

/-- Failed reshape of a mismatched entry: the raised `ValueError` reports
the actual size and the target shape. -/
theorem entry_err2 (tbl : Table) (k : String) (a b : Nat) (flat : List ℚ)
    (hf : flatK tbl k = some flat) (hlen : flat.length ≠ a * b) :
    ∃ v, getK tbl k = some v ∧
      npReshape v [(a : Int), (b : Int)] =
        .error (reshapeErr flat.length [(a : Int), (b : Int)]) := by
  obtain ⟨v, hv, hfo⟩ := flatK_inv tbl k flat hf
  have he := npReshape2_eq v flat hfo a b
  rw [if_neg hlen] at he
  exact ⟨v, hv, he⟩

theorem entry_err3 (tbl : Table) (k : String) (a b c : Nat) (flat : List ℚ)
    (hf : flatK tbl k = some flat) (hlen : flat.length ≠ a * (b * c)) :
    ∃ v, getK tbl k = some v ∧
      npReshape v [(a : Int), (b : Int), (c : Int)] =
        .error (reshapeErr flat.length [(a : Int), (b : Int), (c : Int)]) := by
  obtain ⟨v, hv, hfo⟩ := flatK_inv tbl k flat hf
  have he := npReshape3_eq v flat hfo a b c
  rw [if_neg hlen] at he
  exact ⟨v, hv, he⟩

/-- The reshape loop succeeds when every listed field is present and
reshapable, reshaping each field. -/
theorem foldReshape_ok : ∀ (shapes : List (String × List Int)) (t : Table),
    (shapes.map Prod.fst).Nodup →
    (∀ p ∈ shapes, ∃ v v2, getK t p.1 = some v ∧ npReshape v p.2 = .ok v2) →
    ∃ t', reshapeStage shapes t = .ok t' ∧
      (∀ k2, k2 ∉ shapes.map Prod.fst → getK t' k2 = getK t k2) ∧
      (∀ p ∈ shapes, ∃ v v2, getK t p.1 = some v ∧
        npReshape v p.2 = .ok v2 ∧ getK t' p.1 = some v2) := by
  intro shapes
  induction shapes with
  | nil =>
    intro t _ _
    exact ⟨t, rfl, fun _ _ => rfl, by simp⟩
  | cons p ps ih =>
    intro t hnd h
    obtain ⟨v, v2, hv, hr⟩ := h p (by simp)
    have hstep : reshapeStep t p = .ok (setK t p.1 v2) := by
      have h1 : getVal t p.1 = Except.ok v := by simp [getVal, hv]
      show Except.bind (getVal t p.1)
          (fun w => Except.bind (npReshape w p.2)
            (fun w2 => Except.ok (setK t p.1 w2))) = Except.ok (setK t p.1 v2)
      rw [h1]
      show Except.bind (npReshape v p.2)
          (fun w2 => Except.ok (setK t p.1 w2)) = Except.ok (setK t p.1 v2)
      rw [hr]
      rfl
    rw [List.map_cons, List.nodup_cons] at hnd
    have hps : ∀ q ∈ ps, ∃ v' v2', getK (setK t p.1 v2) q.1 = some v' ∧
        npReshape v' q.2 = .ok v2' := by
      intro q hq
      obtain ⟨v', v2', hv', hr'⟩ := h q (by simp [hq])
      have hne : p.1 ≠ q.1 := fun hc =>
        hnd.1 (hc ▸ List.mem_map_of_mem Prod.fst hq)
      exact ⟨v', v2', by rw [getK_setK_ne _ _ _ _ hne]; exact hv', hr'⟩
    obtain ⟨t', hfold, hpres, hupd⟩ := ih (setK t p.1 v2) hnd.2 hps
    refine ⟨t', ?_, ?_, ?_⟩
    · unfold reshapeStage
      rw [List.foldlM_cons, hstep]
      exact hfold
    · intro k2 hk2
      rw [List.map_cons, List.mem_cons] at hk2
      push_neg at hk2
      rw [hpres k2 hk2.2, getK_setK_ne _ _ _ _ (Ne.symm hk2.1)]
    · intro q hq
      rcases List.mem_cons.mp hq with rfl | hq'
      · refine ⟨v, v2, hv, hr, ?_⟩
        rw [hpres q.1 hnd.1, getK_setK_self]
      · obtain ⟨v', v2', hv', hr', hres⟩ := hupd q hq'
        have hne : p.1 ≠ q.1 := fun hc =>
          hnd.1 (hc ▸ List.mem_map_of_mem Prod.fst hq')
        refine ⟨v', v2', ?_, hr', hres⟩
        rw [getK_setK_ne _ _ _ _ hne] at hv'
        exact hv'

/-- The reshape loop aborts with the first mismatched field's `ValueError`
(earlier fields reshape fine, the loop stops at the offender). -/
theorem foldReshape_err : ∀ (pre : List (String × List Int))
    (p : String × List Int) (post : List (String × List Int))
    (t : Table) (v : Val) (e : String),
    ((pre ++ p :: post).map Prod.fst).Nodup →
    (∀ q ∈ pre, ∃ v' v2', getK t q.1 = some v' ∧
      npReshape v' q.2 = .ok v2') →
    getK t p.1 = some v → npReshape v p.2 = .error e →
    reshapeStage (pre ++ p :: post) t = .error e := by
  intro pre
  induction pre with
  | nil =>
    intro p post t v e _ _ hv he
    unfold reshapeStage
    rw [List.nil_append, List.foldlM_cons]
    have hstep : reshapeStep t p = .error e := by
      have h1 : getVal t p.1 = Except.ok v := by simp [getVal, hv]
      show Except.bind (getVal t p.1)
          (fun w => Except.bind (npReshape w p.2)
            (fun w2 => Except.ok (setK t p.1 w2))) = .error e
      rw [h1]
      show Except.bind (npReshape v p.2)
          (fun w2 => Except.ok (setK t p.1 w2)) = .error e
      rw [he]
      rfl
    rw [hstep]
    rfl
  | cons q pre' ih =>
    intro p post t v e hnd hpre hv he
    obtain ⟨v', v2', hv', hr'⟩ := hpre q (by simp)
    have hstep : reshapeStep t q = .ok (setK t q.1 v2') := by
      have h1 : getVal t q.1 = Except.ok v' := by simp [getVal, hv']
      show Except.bind (getVal t q.1)
          (fun w => Except.bind (npReshape w q.2)
            (fun w2 => Except.ok (setK t q.1 w2))) = Except.ok (setK t q.1 v2')
      rw [h1]
      show Except.bind (npReshape v' q.2)
          (fun w2 => Except.ok (setK t q.1 w2)) = Except.ok (setK t q.1 v2')
      rw [hr']
      rfl
    rw [List.cons_append, List.map_cons, List.nodup_cons] at hnd
    unfold reshapeStage
    rw [List.cons_append, List.foldlM_cons, hstep]
    refine ih p post (setK t q.1 v2') v e hnd.2 ?_ ?_ he
    · intro q2 hq2
      obtain ⟨w, w2, hw, hrw⟩ := hpre q2 (by simp [hq2])
      have hne : q.1 ≠ q2.1 := fun hc => hnd.1 (hc ▸ (by
        rw [List.map_append, List.mem_append]
        exact Or.inl (List.mem_map_of_mem Prod.fst hq2)))
      exact ⟨w, w2, by rw [getK_setK_ne _ _ _ _ hne]; exact hw, hrw⟩
    · have hne : q.1 ≠ p.1 := fun hc => hnd.1 (hc ▸ (by
        rw [List.map_append, List.mem_append]
        exact Or.inr (by simp)))
      rw [getK_setK_ne _ _ _ _ hne]
      exact hv

/-- C3 (amended): for every field with a declared target shape, either the
flat parsed array's length equals the product of the target dimensions and
the field is reshaped to that shape, or the parse fails with the reshape
`ValueError` of a mismatched field, reporting the actual size and the
target shape (the error does not name the field); no mismatched field is
silently kept. -/
theorem C3_reshape (nte nne nto nno ni ng : Nat) (tbl : Table) :
    ((∀ p ∈ required_shape nte nne nto nno ni ng,
        (flatK tbl p.1).map List.length = some (dimsProd p.2)) →
      ∃ t', reshapeStage (required_shape nte nne nto nno ni ng) tbl =
          .ok t' ∧
        ∀ p ∈ required_shape nte nne nto nno ni ng,
          ∃ v2, getK t' p.1 = some v2 ∧ HasShape v2 p.2) ∧
    (∀ pre p post (flat : List ℚ),
      required_shape nte nne nto nno ni ng = pre ++ p :: post →
      (∀ q ∈ pre, (flatK tbl q.1).map List.length = some (dimsProd q.2)) →
      flatK tbl p.1 = some flat → flat.length ≠ dimsProd p.2 →
      reshapeStage (required_shape nte nne nto nno ni ng) tbl =
        .error (reshapeErr flat.length p.2)) := by
  have hnd : ((required_shape nte nne nto nno ni ng).map Prod.fst).Nodup := by
    have hmap : (required_shape nte nne nto nno ni ng).map Prod.fst =
        ["zbar", "eint", "eele", "eion", "pion", "pele", "opp_int",
         "opr_int", "emp_int", "ion_frac", "emp_mg", "opp_mg", "opr_mg"] :=
      rfl
    rw [hmap]
    decide
  have hdims : ∀ p ∈ required_shape nte nne nto nno ni ng,
      (∃ a b : Nat, p.2 = [(a : Int), (b : Int)]) ∨
      (∃ a b c : Nat, p.2 = [(a : Int), (b : Int), (c : Int)]) := by
    intro p hp
    fin_cases hp
    · exact Or.inl ⟨nne, nte, rfl⟩
    · exact Or.inl ⟨nne, nte, rfl⟩
    · exact Or.inl ⟨nne, nte, rfl⟩
    · exact Or.inl ⟨nne, nte, rfl⟩
    · exact Or.inl ⟨nne, nte, rfl⟩
    · exact Or.inl ⟨nne, nte, rfl⟩
    · exact Or.inl ⟨nno, nto, rfl⟩
    · exact Or.inl ⟨nno, nto, rfl⟩
    · exact Or.inl ⟨nno, nto, rfl⟩
    · exact Or.inr ⟨nne, nte, ni, rfl⟩
    · exact Or.inr ⟨nno, nto, ng, rfl⟩
    · exact Or.inr ⟨nno, nto, ng, rfl⟩
    · exact Or.inr ⟨nno, nto, ng, rfl⟩
  have hinv : ∀ p ∈ required_shape nte nne nto nno ni ng,
      (flatK tbl p.1).map List.length = some (dimsProd p.2) →
      ∃ flat, flatK tbl p.1 = some flat ∧ flat.length = dimsProd p.2 := by
    intro p _ h
    match hf : flatK tbl p.1 with
    | none => rw [hf] at h; exact Option.noConfusion h
    | some flat =>
      rw [hf] at h
      exact ⟨flat, rfl, Option.some.inj h⟩
  constructor
  · intro hall
    have hyp : ∀ p ∈ required_shape nte nne nto nno ni ng,
        ∃ v v2, getK tbl p.1 = some v ∧ npReshape v p.2 = .ok v2 ∧
          HasShape v2 p.2 := by
      intro p hp
      obtain ⟨flat, hf, hlen⟩ := hinv p hp (hall p hp)
      rcases hdims p hp with ⟨a, b, heq⟩ | ⟨a, b, c, heq⟩
      · rw [heq, dimsProd_two] at hlen
        obtain ⟨v, v2, hv, hr, hs⟩ := entry_ok2 tbl p.1 a b flat hf hlen
        exact ⟨v, v2, hv, heq ▸ hr, heq ▸ hs⟩
      · rw [heq, dimsProd_three] at hlen
        obtain ⟨v, v2, hv, hr, hs⟩ := entry_ok3 tbl p.1 a b c flat hf hlen
        exact ⟨v, v2, hv, heq ▸ hr, heq ▸ hs⟩
    obtain ⟨t', hfold, _, hupd⟩ :=
      foldReshape_ok (required_shape nte nne nto nno ni ng) tbl hnd
        (fun p hp => (hyp p hp).imp (fun v h =>
          h.imp (fun v2 h2 => ⟨h2.1, h2.2.1⟩)))
    refine ⟨t', hfold, ?_⟩
    intro p hp
    obtain ⟨v, v2, hv, hr, hres⟩ := hupd p hp
    obtain ⟨v', v2', hv', hr', hs'⟩ := hyp p hp
    have hvv : v = v' := by
      rw [hv] at hv'
      exact Option.some.inj hv' 
    subst hvv
    rw [hr] at hr'
    have hv2 : v2 = v2' := Except.ok.inj hr'
    subst hv2
    exact ⟨v2, hres, hs'⟩
  · intro pre p post flat heq hpre hf hlen
    have hpre' : ∀ q ∈ pre, ∃ v' v2', getK tbl q.1 = some v' ∧
        npReshape v' q.2 = .ok v2' := by
      intro q hq
      have hqm : q ∈ required_shape nte nne nto nno ni ng := by
        rw [heq]
        exact List.mem_append_left _ hq
      obtain ⟨fl, hf', hlen'⟩ := hinv q hqm (hpre q hq)
      rcases hdims q hqm with ⟨a, b, heq2⟩ | ⟨a, b, c, heq2⟩
      · rw [heq2, dimsProd_two] at hlen'
        obtain ⟨v, v2, hv, hr, _⟩ := entry_ok2 tbl q.1 a b fl hf' hlen'
        exact ⟨v, v2, hv, heq2 ▸ hr⟩
      · rw [heq2, dimsProd_three] at hlen'
        obtain ⟨v, v2, hv, hr, _⟩ := entry_ok3 tbl q.1 a b c fl hf' hlen'
        exact ⟨v, v2, hv, heq2 ▸ hr⟩
    have hpm : p ∈ required_shape nte nne nto nno ni ng := by
      rw [heq]
      exact List.mem_append_right _ (by simp)
    rcases hdims p hpm with ⟨a, b, heq2⟩ | ⟨a, b, c, heq2⟩
    · rw [heq2, dimsProd_two] at hlen
      obtain ⟨v, hv, he⟩ := entry_err2 tbl p.1 a b flat hf hlen
      rw [heq]
      refine foldReshape_err pre p post tbl v _ (heq ▸ hnd) hpre' hv ?_
      rw [heq2]
      exact he
    · rw [heq2, dimsProd_three] at hlen
      obtain ⟨v, hv, he⟩ := entry_err3 tbl p.1 a b c flat hf hlen
      rw [heq]
      refine foldReshape_err pre p post tbl v _ (heq ▸ hnd) hpre' hv ?_
      rw [heq2]
      exact he

/-- C3 witness: a table whose thirteen declared fields all match their
target sizes for counts `(2, 2, 2, 2, 1, 1)` reshapes successfully. -/
theorem C3_reshape_witness :
    ∃ t', reshapeStage (required_shape 2 2 2 2 1 1)
      [("zbar", Val.r1 [1, 2, 3, 4]), ("eint", Val.r1 [1, 2, 3, 4]),
       ("eele", Val.r1 [1, 2, 3, 4]), ("eion", Val.r1 [1, 2, 3, 4]),
       ("pion", Val.r1 [1, 2, 3, 4]), ("pele", Val.r1 [1, 2, 3, 4]),
       ("opp_int", Val.r1 [1, 2, 3, 4]), ("opr_int", Val.r1 [1, 2, 3, 4]),
       ("emp_int", Val.r1 [1, 2, 3, 4]), ("ion_frac", Val.r1 [1, 2, 3, 4]),
       ("emp_mg", Val.r2 [[1, 1], [1, 1]]),
       ("opp_mg", Val.r2 [[1, 1], [1, 1]]),
       ("opr_mg", Val.r2 [[1, 1], [1, 1]])] = .ok t' ∧
      ∀ p ∈ required_shape 2 2 2 2 1 1,
        ∃ v2, getK t' p.1 = some v2 ∧ HasShape v2 p.2 :=
  (C3_reshape 2 2 2 2 1 1 _).1 (by decide)

/-- C3 counterexample: with `zbar` holding 3 elements against target shape
`(2, 2)`, the parse aborts with numpy's reshape `ValueError`; the message
reports the size and shape but does NOT name the field `zbar` — refuting
the claim that the error names the field. -/
theorem C3_counterexample :
    reshapeStage (required_shape 2 2 2 2 1 1)
      [("zbar", Val.r1 [1, 2, 3]), ("eint", Val.r1 [1, 2, 3, 4]),
       ("eele", Val.r1 [1, 2, 3, 4]), ("eion", Val.r1 [1, 2, 3, 4]),
       ("pion", Val.r1 [1, 2, 3, 4]), ("pele", Val.r1 [1, 2, 3, 4]),
       ("opp_int", Val.r1 [1, 2, 3, 4]), ("opr_int", Val.r1 [1, 2, 3, 4]),
       ("emp_int", Val.r1 [1, 2, 3, 4]), ("ion_frac", Val.r1 [1, 2, 3, 4]),
       ("emp_mg", Val.r2 [[1, 1], [1, 1]]),
       ("opp_mg", Val.r2 [[1, 1], [1, 1]]),
       ("opr_mg", Val.r2 [[1, 1], [1, 1]])] =
      .error "ValueError: cannot reshape array of size 3 into shape (2,2)" ∧
    containsSub "zbar".data
      "ValueError: cannot reshape array of size 3 into shape (2,2)".data =
      false := by
  constructor
  · decide
  · decide

/-! ## C8: the global header parser -/

/-- Resolving a failing bind in an `Except` chain. -/
theorem bind_err_out {β γ : Type} {x : Except String β} {e : String}
    (f : β → Except String γ) (h : x = .error e) : (x >>= f) = .error e := by
  subst h
  rfl

/-- Inverting a successful bind. -/
theorem bind_ok_inv {β γ : Type} {x : Except String β}
    {f : β → Except String γ} {c : γ} (h : (x >>= f) = .ok c) :
    ∃ b, x = .ok b ∧ f b = .ok c := by
  match x with
  | .error e => exact Except.noConfusion h
  | .ok b => exact ⟨b, rfl, h⟩

/-- A line that does not start with the label leaves the entry untouched. -/
theorem ghEntry_no (t : Table) (line : Line) (k lbl : String) (b : Bool)
    (h : labelHit lbl line = false) : ghEntry t line k lbl b = .ok t := by
  simp [ghEntry, h]

/-- A matching `int`-valued entry stores the parsed integer. -/
theorem ghEntry_int (t : Table) (line : Line) (k lbl : String) (n : Int)
    (h : labelHit lbl line = true)
    (hp : pyInt (String.mk (stripLabel lbl line)) = some n) :
    ghEntry t line k lbl true = .ok (setK t k (.i n)) := by
  simp [ghEntry, h, hp]

/-- A matching array-valued entry stores the parsed array. -/
theorem ghEntry_arr (t : Table) (line : Line) (k lbl : String)
    (h : labelHit lbl line = true) :
    ghEntry t line k lbl false =
      .ok (setK t k (.r1 (str2arr (stripLabel lbl line)))) := by
  simp [ghEntry, h]

/-- Each table key belongs to exactly one pattern label. -/
theorem ghPatterns_key_label : ∀ (key lbl : String) (b : Bool),
    (key, lbl, b) ∈ ghPatterns →
    ∀ p ∈ ghPatterns, p.1 = key → p.2.1 = lbl := by
  intro key lbl b hmem
  fin_cases hmem <;> decide

/-- A line whose label patterns for `key` all fail leaves `key` unchanged
(whatever other keys the line sets). -/
theorem ghLine_preserves (line : Line) (key : String)
    (hkey : ∀ p ∈ ghPatterns, p.1 = key → labelHit p.2.1 line = false) :
    ∀ t t2, ghLine t line = .ok t2 → getK t2 key = getK t key := by
  have main : ∀ (ps : List (String × String × Bool)),
      (∀ p ∈ ps, p.1 = key → labelHit p.2.1 line = false) →
      ∀ t t2, ps.foldlM (fun t2 p => ghEntry t2 line p.1 p.2.1 p.2.2) t =
        .ok t2 → getK t2 key = getK t key := by
    intro ps
    induction ps with
    | nil =>
      intro _ t t2 h
      cases h
      rfl
    | cons p ps ih =>
      intro hkey t t2 h
      rw [List.foldlM_cons] at h
      by_cases hpk : p.1 = key
      · have hlf := hkey p (by simp) hpk
        rw [bind_ok_out _ (ghEntry_no t line p.1 p.2.1 p.2.2 hlf)] at h
        exact ih (fun q hq => hkey q (by simp [hq])) t t2 h
      · match hb : labelHit p.2.1 line with
        | false =>
          rw [bind_ok_out _ (ghEntry_no t line p.1 p.2.1 p.2.2 hb)] at h
          exact ih (fun q hq => hkey q (by simp [hq])) t t2 h
        | true =>
          match hai : p.2.2 with
          | false =>
            rw [hai] at h
            rw [bind_ok_out _ (ghEntry_arr t line p.1 p.2.1 hb)] at h
            have := ih (fun q hq => hkey q (by simp [hq])) _ t2 h
            rw [this, getK_setK_ne _ _ _ _ hpk]
          | true =>
            rw [hai] at h
            match hpi : pyInt (String.mk (stripLabel p.2.1 line)) with
            | none =>
              have herr : ghEntry t line p.1 p.2.1 true =
                  .error (errIntLit (String.mk (stripLabel p.2.1 line))) := by
                simp [ghEntry, hb, hpi]
              rw [bind_err_out _ herr] at h
              exact Except.noConfusion h
            | some n =>
              rw [bind_ok_out _ (ghEntry_int t line p.1 p.2.1 n hb hpi)] at h
              have := ih (fun q hq => hkey q (by simp [hq])) _ t2 h
              rw [this, getK_setK_ne _ _ _ _ hpk]
  intro t t2 h
  exact main ghPatterns hkey t t2 h

/-- Folding further lines none of which matches `key`'s pattern leaves
`key` unchanged. -/
theorem ghFold_preserves (key : String) :
    ∀ (post : List Line),
    (∀ l ∈ post, ∀ p ∈ ghPatterns, p.1 = key → labelHit p.2.1 l = false) →
    ∀ t t', List.foldlM ghLine t post = .ok t' → getK t' key = getK t key := by
  intro post
  induction post with
  | nil =>
    intro _ t t' h
    cases h
    rfl
  | cons l ls ih =>
    intro hkey t t' h
    rw [List.foldlM_cons] at h
    obtain ⟨t1, h1, h2⟩ := bind_ok_inv h
    have hp := ghLine_preserves l key (hkey l (by simp)) t t1 h1
    rw [ih (fun l' hl' => hkey l' (by simp [hl'])) t1 t' h2, hp]

/-- A line matching exactly one pattern stores that pattern's value (and
nothing blocks the remaining patterns). -/
theorem ghLine_capture : ∀ (key lbl : String) (asInt : Bool),
    (key, lbl, asInt) ∈ ghPatterns →
    ∀ (line : Line) (t : Table) (v : Val),
    (∀ p ∈ ghPatterns, p.2.1 ≠ lbl → labelHit p.2.1 line = false) →
    labelHit lbl line = true → ghValue asInt lbl line = some v →
    ghLine t line = .ok (setK t key v) := by
  intro key lbl asInt hmem line t v hothers hhit hval
  fin_cases hmem
  · -- Num_ions
    have hZ := hothers ("Znum", " atomic #s of gases:", false) (by simp [ghPatterns]) (by decide)
    have hA := hothers ("Anum", " atomic weight of gas:", false) (by simp [ghPatterns]) (by decide)
    have hX := hothers ("Xnum", " relative fractions:", false) (by simp [ghPatterns]) (by decide)
    rw [ghValue, if_pos rfl] at hval
    match hpi : pyInt (String.mk (stripLabel " number of ions:" line)) with
    | none => rw [hpi] at hval; exact Option.noConfusion hval
    | some n =>
      rw [hpi] at hval
      have hv : v = .i n := (Option.some.inj hval).symm
      subst hv
      unfold ghLine ghPatterns
      rw [List.foldlM_cons, bind_ok_out _ (ghEntry_int t line _ _ n hhit hpi),
        List.foldlM_cons, bind_ok_out _ (ghEntry_no _ line _ _ _ hZ),
        List.foldlM_cons, bind_ok_out _ (ghEntry_no _ line _ _ _ hA),
        List.foldlM_cons, bind_ok_out _ (ghEntry_no _ line _ _ _ hX)]
      rfl
  · -- Znum
    have hN := hothers ("Num_ions", " number of ions:", true) (by simp [ghPatterns]) (by decide)
    have hA := hothers ("Anum", " atomic weight of gas:", false) (by simp [ghPatterns]) (by decide)
    have hX := hothers ("Xnum", " relative fractions:", false) (by simp [ghPatterns]) (by decide)
    rw [ghValue] at hval
    simp only [Bool.false_eq_true, if_false] at hval
    have hv : v = .r1 (str2arr (stripLabel " atomic #s of gases:" line)) :=
      (Option.some.inj hval).symm
    subst hv
    unfold ghLine ghPatterns
    rw [List.foldlM_cons, bind_ok_out _ (ghEntry_no _ line _ _ _ hN),
      List.foldlM_cons, bind_ok_out _ (ghEntry_arr t line _ _ hhit),
      List.foldlM_cons, bind_ok_out _ (ghEntry_no _ line _ _ _ hA),
      List.foldlM_cons, bind_ok_out _ (ghEntry_no _ line _ _ _ hX)]
    rfl
  · -- Anum
    have hN := hothers ("Num_ions", " number of ions:", true) (by simp [ghPatterns]) (by decide)
    have hZ := hothers ("Znum", " atomic #s of gases:", false) (by simp [ghPatterns]) (by decide)
    have hX := hothers ("Xnum", " relative fractions:", false) (by simp [ghPatterns]) (by decide)
    rw [ghValue] at hval
    simp only [Bool.false_eq_true, if_false] at hval
    have hv : v = .r1 (str2arr (stripLabel " atomic weight of gas:" line)) :=
      (Option.some.inj hval).symm
    subst hv
    unfold ghLine ghPatterns
    rw [List.foldlM_cons, bind_ok_out _ (ghEntry_no _ line _ _ _ hN),
      List.foldlM_cons, bind_ok_out _ (ghEntry_no _ line _ _ _ hZ),
      List.foldlM_cons, bind_ok_out _ (ghEntry_arr t line _ _ hhit),
      List.foldlM_cons, bind_ok_out _ (ghEntry_no _ line _ _ _ hX)]
    rfl
  · -- Xnum
    have hN := hothers ("Num_ions", " number of ions:", true) (by simp [ghPatterns]) (by decide)
    have hZ := hothers ("Znum", " atomic #s of gases:", false) (by simp [ghPatterns]) (by decide)
    have hA := hothers ("Anum", " atomic weight of gas:", false) (by simp [ghPatterns]) (by decide)
    rw [ghValue] at hval
    simp only [Bool.false_eq_true, if_false] at hval
    have hv : v = .r1 (str2arr (stripLabel " relative fractions:" line)) :=
      (Option.some.inj hval).symm
    subst hv
    unfold ghLine ghPatterns
    rw [List.foldlM_cons, bind_ok_out _ (ghEntry_no _ line _ _ _ hN),
      List.foldlM_cons, bind_ok_out _ (ghEntry_no _ line _ _ _ hZ),
      List.foldlM_cons, bind_ok_out _ (ghEntry_no _ line _ _ _ hA),
      List.foldlM_cons, bind_ok_out _ (ghEntry_arr t line _ _ hhit)]
    rfl

/-- C8 (amended): the Global Header Parser operates on exactly the document
lines from index 15 up to the first scanned section's begin index — NOT on
the whole prefix before the first section; within those lines, each line is
matched against the fixed labeled patterns, a line matching none is ignored
(the table passes through unchanged), and a line matching a pattern whose
label does not recur later in the slice ends up stored under that pattern's
key. -/
theorem C8_global_header :
    (∀ (doc : List Line) (secs : Sections), scanSections doc = .ok secs →
      globalStage doc = (_parse_global_header []
        (pySlice doc 15 ((secs.begins.headD 0 : Nat) : Int))).map
          (fun t => (secs, t))) ∧
    (∀ (line : Line) (t : Table),
      (∀ p ∈ ghPatterns, labelHit p.2.1 line = false) →
      ghLine t line = .ok t) ∧
    (∀ (key lbl : String) (asInt : Bool), (key, lbl, asInt) ∈ ghPatterns →
      ∀ (pre post : List Line) (line : Line) (t t' : Table) (v : Val),
      _parse_global_header t (pre ++ line :: post) = .ok t' →
      (∀ p ∈ ghPatterns, p.2.1 ≠ lbl → labelHit p.2.1 line = false) →
      labelHit lbl line = true →
      ghValue asInt lbl line = some v →
      (∀ l' ∈ post, labelHit lbl l' = false) →
      getK t' key = some v) := by
  refine ⟨?_, ?_, ?_⟩
  · intro doc secs h
    unfold globalStage
    rw [bind_ok_out _ h]
    match hp : _parse_global_header []
        (pySlice doc 15 ((secs.begins.headD 0 : Nat) : Int)) with
    | .error e => rfl
    | .ok t => rfl
  · intro line t hnone
    unfold ghLine ghPatterns
    rw [List.foldlM_cons,
      bind_ok_out _ (ghEntry_no t line _ _ _
        (hnone ("Num_ions", " number of ions:", true) (by simp [ghPatterns]))),
      List.foldlM_cons,
      bind_ok_out _ (ghEntry_no t line _ _ _
        (hnone ("Znum", " atomic #s of gases:", false) (by simp [ghPatterns]))),
      List.foldlM_cons,
      bind_ok_out _ (ghEntry_no t line _ _ _
        (hnone ("Anum", " atomic weight of gas:", false) (by simp [ghPatterns]))),
      List.foldlM_cons,
      bind_ok_out _ (ghEntry_no t line _ _ _
        (hnone ("Xnum", " relative fractions:", false) (by simp [ghPatterns])))]
    rfl
  · intro key lbl asInt hmem pre post line t t' v h hothers hhit hval hpost
    unfold _parse_global_header at h
    rw [List.foldlM_append] at h
    obtain ⟨t1, h1, h2⟩ := bind_ok_inv h
    rw [List.foldlM_cons] at h2
    obtain ⟨t2, hline, hfold⟩ := bind_ok_inv h2
    have hcap := ghLine_capture key lbl asInt hmem line t1 v hothers hhit hval
    rw [hcap] at hline
    have ht2 : t2 = setK t1 key v := (Except.ok.inj hline).symm
    subst ht2
    have hkeylbl := ghPatterns_key_label key lbl asInt hmem
    have hpres := ghFold_preserves key post
      (fun l' hl' p hp hpk => by
        rw [hkeylbl p hp hpk]
        exact hpost l' hl') _ t' hfold
    rw [hpres, getK_setK_self]

/-- C8 witness: a concrete global-header fragment where the labeled line is
captured. -/
theorem C8_witness :
    getK [("Num_ions", Val.i 3)] "Num_ions" = some (Val.i 3) := by
  refine C8_global_header.2.2 "Num_ions" " number of ions:" true (by decide)
    ["junk"] ["after"] " number of ions:  3" [] [("Num_ions", Val.i 3)]
    (Val.i 3) ?_ (by decide) (by decide) (by decide) (by decide)
  decide

/-- C8 counterexample: a document whose labeled line sits at index 2 —
before the first section, but inside the unconditionally skipped first 15
lines.  The global-header stage never sees it: `Num_ions` stays absent,
refuting the claim that any labeled line before the first section is
captured. -/
theorem C8_counterexample :
    labelHit " number of ions:" " number of ions:  7" = true ∧
    (["* B", "", " number of ions:  7", "", "", "", "", "", "", "", "", "",
      "", "", "", "", "* S", "x"].getD 2 "" = " number of ions:  7") ∧
    scanSections ["* B", "", " number of ions:  7", "", "", "", "", "", "",
      "", "", "", "", "", "", "", "* S", "x"] =
      .ok ⟨[16], [17], [18]⟩ ∧
    Except.map (fun p => getK p.2 "Num_ions")
      (globalStage ["* B", "", " number of ions:  7", "", "", "", "", "",
        "", "", "", "", "", "", "", "", "* S", "x"]) = .ok none := by
  refine ⟨by decide, by decide, by decide, by decide⟩

/-! ## C7: numeric-field errors and the silent truncation of `np.fromstring` -/

theorem takeWhile_append_ext (p : Char → Bool) :
    ∀ (l x : List Char), (l ++ x).takeWhile p =
      l.takeWhile p ++ (if l.dropWhile p = [] then x.takeWhile p else []) := by
  intro l
  induction l with
  | nil => intro x; simp
  | cons c l ih =>
    intro x
    cases hp : p c with
    | true => simp [List.takeWhile_cons, List.dropWhile_cons, hp, ih x]
    | false => simp [List.takeWhile_cons, List.dropWhile_cons, hp]

theorem dropWhile_append_ext (p : Char → Bool) :
    ∀ (l x : List Char), (l ++ x).dropWhile p =
      if l.dropWhile p = [] then x.dropWhile p else l.dropWhile p ++ x := by
  intro l
  induction l with
  | nil => intro x; simp
  | cons c l ih =>
    intro x
    cases hp : p c with
    | true => simp [List.dropWhile_cons, hp, ih x]
    | false => simp [List.dropWhile_cons, hp]

/-- Appending ` `-separated text does not change an optional sign read. -/
theorem readSign_ext (s r : List Char) :
    readSign (s ++ ' ' :: r) = ((readSign s).1, (readSign s).2 ++ ' ' :: r) := by
  cases s with
  | nil =>
    show readSign (' ' :: r) = (1, ' ' :: r)
    simp only [readSign]
    rw [if_neg (by decide), if_neg (by decide)]
  | cons c s =>
    by_cases h1 : c = '+'
    · simp [readSign, h1]
    · by_cases h2 : c = '-' <;> simp [readSign, h1, h2]

/-- Appending ` `-separated text does not change an optional exponent sign. -/
theorem readSignZ_ext (s r : List Char) :
    readSignZ (s ++ ' ' :: r) = ((readSignZ s).1, (readSignZ s).2 ++ ' ' :: r) := by
  cases s with
  | nil =>
    show readSignZ (' ' :: r) = (1, ' ' :: r)
    simp only [readSignZ]
    rw [if_neg (by decide), if_neg (by decide)]
  | cons c s =>
    by_cases h1 : c = '+'
    · simp [readSignZ, h1]
    · by_cases h2 : c = '-' <;> simp [readSignZ, h1, h2]

theorem readSign_ext_fst (s r : List Char) :
    (readSign (s ++ ' ' :: r)).1 = (readSign s).1 := by
  rw [readSign_ext]

theorem readSign_ext_snd (s r : List Char) :
    (readSign (s ++ ' ' :: r)).2 = (readSign s).2 ++ ' ' :: r := by
  rw [readSign_ext]

theorem readSignZ_ext_fst (s r : List Char) :
    (readSignZ (s ++ ' ' :: r)).1 = (readSignZ s).1 := by
  rw [readSignZ_ext]

theorem readSignZ_ext_snd (s r : List Char) :
    (readSignZ (s ++ ' ' :: r)).2 = (readSignZ s).2 ++ ' ' :: r := by
  rw [readSignZ_ext]

/-- Unfolded one-step equation for `parseExp` on a nonempty input. -/
theorem parseExp_cons (m : ℚ) (c : Char) (rest : List Char) :
    parseExp m (c :: rest) =
      if c = 'e' ∨ c = 'E' then
        if (readSignZ rest).2.takeWhile isDig = [] then (m, c :: rest)
        else (m * (10 : ℚ) ^ ((readSignZ rest).1 *
          (digitsVal ((readSignZ rest).2.takeWhile isDig) : Int)),
          (readSignZ rest).2.dropWhile isDig)
      else (m, c :: rest) := rfl

/-- Unfolded equation for `floatPre` with all pair projections resolved. -/
theorem floatPre_eq (l : List Char) :
    floatPre l =
      if (readSign l).2.takeWhile isDig = [] ∧
          (fracPart ((readSign l).2.dropWhile isDig)).1 = [] then none
      else some (parseExp ((readSign l).1 *
        mantVal ((readSign l).2.takeWhile isDig)
          (fracPart ((readSign l).2.dropWhile isDig)).1)
        (fracPart ((readSign l).2.dropWhile isDig)).2) := rfl

theorem fracPart_nil_fst : (fracPart ([] : List Char)).1 = [] := rfl

theorem fracPart_nil_snd : (fracPart ([] : List Char)).2 = [] := rfl

theorem fracPart_ws_fst (r : List Char) : (fracPart (' ' :: r)).1 = [] := by
  simp only [fracPart]
  rw [if_neg (by decide)]

theorem fracPart_ws_snd (r : List Char) :
    (fracPart (' ' :: r)).2 = ' ' :: r := by
  simp only [fracPart]
  rw [if_neg (by decide)]

theorem fracPart_dot_fst (r : List Char) :
    (fracPart ('.' :: r)).1 = r.takeWhile isDig := rfl

theorem fracPart_dot_snd (r : List Char) :
    (fracPart ('.' :: r)).2 = r.dropWhile isDig := rfl

theorem fracPart_cons_ne_fst (c : Char) (r : List Char) (h : c ≠ '.') :
    (fracPart (c :: r)).1 = [] := by
  simp only [fracPart]
  rw [if_neg h]

theorem fracPart_cons_ne_snd (c : Char) (r : List Char) (h : c ≠ '.') :
    (fracPart (c :: r)).2 = c :: r := by
  simp only [fracPart]
  rw [if_neg h]

/-- A `strtod` exponent read that consumed its whole input still stops at a
space appended after that input. -/
theorem parseExp_ext (m v : ℚ) (l r : List Char)
    (h : parseExp m l = (v, [])) :
    parseExp m (l ++ ' ' :: r) = (v, ' ' :: r) := by
  have tw_ws : (' ' :: r).takeWhile isDig = [] := by
    rw [List.takeWhile_cons]
    rw [if_neg (by decide)]
  have dw_ws : (' ' :: r).dropWhile isDig = ' ' :: r := by
    rw [List.dropWhile_cons]
    rw [if_neg (by decide)]
  cases l with
  | nil =>
    have hm : m = v := congrArg Prod.fst h
    subst hm
    rw [List.nil_append, parseExp_cons]
    rw [if_neg (by decide)]
  | cons c rest =>
    rw [parseExp_cons] at h
    rw [List.cons_append, parseExp_cons]
    by_cases hc : c = 'e' ∨ c = 'E'
    · rw [if_pos hc] at h
      rw [if_pos hc, readSignZ_ext_fst, readSignZ_ext_snd,
        takeWhile_append_ext, dropWhile_append_ext]
      by_cases hds : (readSignZ rest).2.takeWhile isDig = []
      · rw [if_pos hds] at h
        exact absurd (congrArg Prod.snd h) (by simp)
      · rw [if_neg hds] at h
        have hdrop : (readSignZ rest).2.dropWhile isDig = [] :=
          congrArg Prod.snd h
        have hv : m * (10 : ℚ) ^ ((readSignZ rest).1 *
            (digitsVal ((readSignZ rest).2.takeWhile isDig) : Int)) = v :=
          congrArg Prod.fst h
        rw [if_pos hdrop, if_pos hdrop, tw_ws, List.append_nil, dw_ws,
          if_neg hds, hv]
    · rw [if_neg hc] at h
      rw [if_neg hc]
      exact absurd (congrArg Prod.snd h) (by simp)

/-- KEY extension lemma: a token that `strtod` consumes entirely is read
identically when a space and further text follow it, and the reader stops
exactly at the space. -/
theorem floatPre_ext (s : List Char) (v : ℚ) (r : List Char)
    (h : floatPre s = some (v, [])) :
    floatPre (s ++ ' ' :: r) = some (v, ' ' :: r) := by
  have tw_ws : (' ' :: r).takeWhile isDig = [] := by
    rw [List.takeWhile_cons]
    rw [if_neg (by decide)]
  have dw_ws : (' ' :: r).dropWhile isDig = ' ' :: r := by
    rw [List.dropWhile_cons]
    rw [if_neg (by decide)]
  rw [floatPre_eq] at h
  rw [floatPre_eq, readSign_ext_fst, readSign_ext_snd, takeWhile_append_ext,
    dropWhile_append_ext]
  by_cases hl2 : (readSign s).2.dropWhile isDig = []
  · rw [if_pos hl2, if_pos hl2, tw_ws, List.append_nil, dw_ws,
      fracPart_ws_fst, fracPart_ws_snd]
    rw [hl2, fracPart_nil_fst, fracPart_nil_snd] at h
    by_cases hcond : (readSign s).2.takeWhile isDig = [] ∧
        ([] : List Char) = []
    · rw [if_pos hcond] at h
      exact Option.noConfusion h
    · rw [if_neg hcond] at h
      rw [if_neg hcond]
      exact congrArg some (parseExp_ext _ v _ r (Option.some.inj h))
  · rw [if_neg hl2, if_neg hl2, List.append_nil]
    rcases hdwc : (readSign s).2.dropWhile isDig with _ | ⟨c2, r2⟩
    · exact absurd hdwc hl2
    · rw [List.cons_append]
      rw [hdwc] at h
      by_cases hc2 : c2 = '.'
      · subst hc2
        rw [fracPart_dot_fst, fracPart_dot_snd] at h
        rw [fracPart_dot_fst, fracPart_dot_snd, takeWhile_append_ext,
          dropWhile_append_ext]
        by_cases hl3 : r2.dropWhile isDig = []
        · rw [if_pos hl3, if_pos hl3, tw_ws, List.append_nil, dw_ws]
          rw [hl3] at h
          by_cases hcond : (readSign s).2.takeWhile isDig = [] ∧
              r2.takeWhile isDig = []
          · rw [if_pos hcond] at h
            exact Option.noConfusion h
          · rw [if_neg hcond] at h
            rw [if_neg hcond]
            exact congrArg some (parseExp_ext _ v _ r (Option.some.inj h))
        · rw [if_neg hl3, if_neg hl3, List.append_nil]
          by_cases hcond : (readSign s).2.takeWhile isDig = [] ∧
              r2.takeWhile isDig = []
          · rw [if_pos hcond] at h
            exact Option.noConfusion h
          · rw [if_neg hcond] at h
            rw [if_neg hcond]
            exact congrArg some (parseExp_ext _ v _ r (Option.some.inj h))
      · rw [fracPart_cons_ne_fst c2 r2 hc2, fracPart_cons_ne_snd c2 r2 hc2]
          at h
        rw [fracPart_cons_ne_fst c2 (r2 ++ ' ' :: r) hc2,
          fracPart_cons_ne_snd c2 (r2 ++ ' ' :: r) hc2]
        by_cases hcond : (readSign s).2.takeWhile isDig = [] ∧
            ([] : List Char) = []
        · rw [if_pos hcond] at h
          exact Option.noConfusion h
        · rw [if_neg hcond] at h
          rw [if_neg hcond]
          exact congrArg some (parseExp_ext _ v _ r (Option.some.inj h))

/-- A clean token is exactly one whose characters `strtod` consumes fully. -/
theorem cleanTok_eq_some (t : String) (v : ℚ) (h : cleanTok t = some v) :
    floatPre t.data = some (v, []) := by
  unfold cleanTok at h
  rcases hf : floatPre t.data with _ | ⟨w, rest⟩
  · rw [hf] at h
    exact Option.noConfusion h
  · cases rest with
    | nil =>
      rw [hf] at h
      have hw : w = v := Option.some.inj h
      rw [hw]
    | cons c cs =>
      rw [hf] at h
      exact Option.noConfusion h

/-- No float prefix starts at a character that is not a digit, sign or dot. -/
theorem floatPre_none_of_plain (c : Char) (r : List Char)
    (h1 : isDig c = false) (h2 : c ≠ '+') (h3 : c ≠ '-') (h4 : c ≠ '.') :
    floatPre (c :: r) = none := by
  have hrs : readSign (c :: r) = (1, c :: r) := by
    simp only [readSign]
    rw [if_neg h2, if_neg h3]
  have hrs2 : (readSign (c :: r)).2 = c :: r := by rw [hrs]
  have ht : (c :: r).takeWhile isDig = [] := by
    rw [List.takeWhile_cons]
    rw [if_neg (by simp [h1])]
  have hd : (c :: r).dropWhile isDig = c :: r := by
    rw [List.dropWhile_cons]
    rw [if_neg (by simp [h1])]
  rw [floatPre_eq, hrs2, ht, hd, fracPart_cons_ne_fst c r h4]
  rw [if_pos (by exact ⟨rfl, rfl⟩)]

/-- The characters matched by `\s`. -/
theorem isWs_cases (c : Char) (h : isWs c = true) :
    c = ' ' ∨ c = '\t' ∨ c = '\n' ∨ c = '\r' ∨ c = '\x0b' ∨ c = '\x0c' := by
  simp only [isWs, Bool.or_eq_true, decide_eq_true_eq] at h
  tauto

/-- A token `strtod` reads is nonempty and starts with a non-whitespace
character. -/
theorem floatPre_head_not_ws (s : List Char) (v : ℚ) (rest : List Char)
    (h : floatPre s = some (v, rest)) :
    ∃ c s2, s = c :: s2 ∧ isWs c = false := by
  cases s with
  | nil =>
    have h0 : floatPre ([] : List Char) = none := rfl
    rw [h0] at h
    cases h
  | cons c s2 =>
    refine ⟨c, s2, rfl, ?_⟩
    by_contra hws
    rw [Bool.not_eq_false] at hws
    have hplain : isDig c = false ∧ c ≠ '+' ∧ c ≠ '-' ∧ c ≠ '.' := by
      rcases isWs_cases c hws with h5|h5|h5|h5|h5|h5 <;> subst h5 <;>
        exact ⟨by decide, by decide, by decide, by decide⟩
    rw [floatPre_none_of_plain c s2 hplain.1 hplain.2.1 hplain.2.2.1
      hplain.2.2.2] at h
    cases h

/-- The separated-values loop skips a leading space. -/
theorem str2floatCore_ws (fuel : Nat) (l : List Char) :
    str2floatCore fuel (' ' :: l) = str2floatCore fuel l := by
  cases fuel with
  | zero => rfl
  | succ f =>
    have hd : (' ' :: l).dropWhile isWs = l.dropWhile isWs := by
      rw [List.dropWhile_cons]
      rw [if_pos (by decide)]
    simp only [str2floatCore, hd]

/-- Run of the separated-values loop over clean tokens followed by a blocked
tail: every clean token is read, the tail is silently discarded, no error. -/
theorem str2floatCore_run : ∀ (goods : List String) (B : List Char)
    (fuel : Nat),
    (∀ g ∈ goods, ∃ w, cleanTok g = some w) →
    floatPre (B.dropWhile isWs) = none →
    (joinChars goods B).length < fuel →
    str2floatCore fuel (joinChars goods B) = goods.filterMap cleanTok := by
  intro goods
  induction goods with
  | nil =>
    intro B fuel _ hB hf
    cases fuel with
    | zero => exact absurd hf (by omega)
    | succ f =>
      show str2floatCore (f + 1) B = List.filterMap cleanTok []
      simp only [str2floatCore, hB, List.filterMap_nil]
  | cons g gs ih =>
    intro B fuel hg hB hf
    obtain ⟨w, hw⟩ := hg g (List.mem_cons_self g gs)
    have hfp : floatPre g.data = some (w, []) := cleanTok_eq_some g w hw
    obtain ⟨c, s2, hgd, hcw⟩ := floatPre_head_not_ws g.data w [] hfp
    cases fuel with
    | zero => exact absurd hf (by omega)
    | succ f =>
      have hJ : joinChars (g :: gs) B = g.data ++ ' ' :: joinChars gs B := rfl
      have hdw : (g.data ++ ' ' :: joinChars gs B).dropWhile isWs =
          g.data ++ ' ' :: joinChars gs B := by
        rw [hgd, List.cons_append, List.dropWhile_cons]
        rw [if_neg (by simp [hcw])]
      have hext := floatPre_ext g.data w (joinChars gs B) hfp
      rw [hJ]
      simp only [str2floatCore, hdw, hext]
      show w :: str2floatCore f (' ' :: joinChars gs B) =
        List.filterMap cleanTok (g :: gs)
      rw [str2floatCore_ws]
      have hlen : (joinChars gs B).length < f := by
        rw [hJ] at hf
        have hlg : 0 < g.data.length := by rw [hgd]; simp
        simp only [List.length_append, List.length_cons] at hf
        omega
      rw [ih B f (fun g2 hg2 => hg g2 (List.mem_cons_of_mem g hg2)) hB hlen]
      simp [List.filterMap_cons, hw]

theorem intercalate_go_data (x y : String) (l : List String) :
    (String.intercalate.go x " " (y :: l)).data =
      x.data ++ ' ' :: (String.intercalate.go y " " l).data := by
  induction l generalizing x y with
  | nil =>
    show (x ++ " " ++ y).data = x.data ++ ' ' :: y.data
    simp [String.data_append]
  | cons z l ih =>
    show (String.intercalate.go (x ++ " " ++ y) " " (z :: l)).data =
      x.data ++ ' ' :: (String.intercalate.go y " " (z :: l)).data
    rw [ih (x ++ " " ++ y) z, ih y z]
    simp [String.data_append]

theorem intercalate_cons_ne (x : String) (ys : List String) (hy : ys ≠ []) :
    (" ".intercalate (x :: ys)).data =
      x.data ++ ' ' :: (" ".intercalate ys).data := by
  cases ys with
  | nil => exact absurd rfl hy
  | cons y l =>
    show (String.intercalate.go x " " (y :: l)).data =
      x.data ++ ' ' :: (String.intercalate.go y " " l).data
    exact intercalate_go_data x y l

/-- `' '.join(txt)` splits as the clean prefix joined onto the rest. -/
theorem intercalate_joinChars : ∀ (goods : List String) (bad : String)
    (rest : List String),
    (" ".intercalate (goods ++ bad :: rest)).data =
      joinChars goods ((" ".intercalate (bad :: rest)).data) := by
  intro goods
  induction goods with
  | nil => intro bad rest; rfl
  | cons g gs ih =>
    intro bad rest
    rw [List.cons_append, intercalate_cons_ne g (gs ++ bad :: rest) (by simp)]
    rw [ih bad rest]
    rfl

/-- A bad grid-count line makes `gridCore` raise the `int()` ValueError. -/
theorem gridCore_badCount (tbl : Table) (s : Line) (l : List Line)
    (tag : String) (h : pyInt s = none) :
    gridCore tbl (s :: l) tag = .error (errIntLit s) := by
  have hg0 : pyGet (s :: l) (0 : Int) = some s := rfl
  simp only [gridCore, hg0, h]

/-- C7, corrected.  The spec says a non-numeric value in a numeric field
always aborts the parse with a descriptive error and that non-numeric tokens
inside an array body are never silently dropped or truncated.  Only the grid
counts behave that way (second conjunct: a non-numeric count line raises the
`int()` ValueError naming the literal).  Array bodies go through
`str2float = np.fromstring(' '.join(txt), sep=' ')`, which never raises: it
stops silently at the first token that does not parse as a float and returns
only the values collected so far (first conjunct) — the claimed truncation
error does not exist. -/
theorem C7_numeric_errors (goods : List String) (bad : String)
    (rest : List String)
    (hg : ∀ g ∈ goods, ∃ w, cleanTok g = some w)
    (hbad : noFloatStart (bad.data.headD ' ') = true) :
    str2float (goods ++ bad :: rest) = goods.filterMap cleanTok ∧
    (∀ (tbl : Table) (tag : String) (s : Line) (rest2 : List Line),
      s ≠ "" → pyInt s = none →
      _parse_grid tbl (s :: rest2) tag = .error (errIntLit s)) := by
  constructor
  · obtain ⟨c, s2, hbd, hnfs⟩ :
        ∃ c s2, bad.data = c :: s2 ∧ noFloatStart c = true := by
      cases hbd : bad.data with
      | nil =>
        rw [hbd] at hbad
        exact absurd hbad (by decide)
      | cons c s2 =>
        rw [hbd] at hbad
        exact ⟨c, s2, rfl, by simpa using hbad⟩
    have hdig : isDig c = false := by
      by_contra hx
      rw [Bool.not_eq_false] at hx
      simp only [noFloatStart, hx] at hnfs
      simp at hnfs
    have hplus : c ≠ '+' := by
      intro hx; subst hx; exact absurd hnfs (by decide)
    have hminus : c ≠ '-' := by
      intro hx; subst hx; exact absurd hnfs (by decide)
    have hdot : c ≠ '.' := by
      intro hx; subst hx; exact absurd hnfs (by decide)
    have hwsc : isWs c = false := by
      by_contra hx
      rw [Bool.not_eq_false] at hx
      simp only [noFloatStart, hx] at hnfs
      simp at hnfs
    obtain ⟨tail, htail⟩ : ∃ tail,
        (" ".intercalate (bad :: rest)).data = bad.data ++ tail := by
      cases rest with
      | nil =>
        refine ⟨[], ?_⟩
        show bad.data = bad.data ++ []
        rw [List.append_nil]
      | cons r0 rs => exact ⟨_, intercalate_cons_ne bad (r0 :: rs) (by simp)⟩
    have hB : floatPre
        ((" ".intercalate (bad :: rest)).data.dropWhile isWs) = none := by
      rw [htail, hbd, List.cons_append, List.dropWhile_cons]
      rw [if_neg (by simp [hwsc])]
      exact floatPre_none_of_plain c (s2 ++ tail) hdig hplus hminus hdot
    simp only [str2float]
    rw [intercalate_joinChars]
    exact str2floatCore_run goods _ _ hg hB (by omega)
  · intro tbl tag s rest2 hs hpy
    unfold _parse_grid
    have hfil : (s :: rest2).filter (fun el => el ≠ "") =
        s :: rest2.filter (fun el => el ≠ "") := by
      rw [List.filter_cons, if_pos (by simpa using hs)]
    rw [hfil]
    exact gridCore_badCount tbl s _ tag hpy

/-- C7 witness: one clean token before a blocked one — the result is the
single parsed value, silently; and a non-numeric grid count raises. -/
theorem C7_numeric_errors_witness :
    str2float (["1.5"] ++ "abc" :: ["2.5"]) = [(3 : ℚ)/2] ∧
    _parse_grid [] ["x1", "7"] "eos" = .error (errIntLit "x1") := by
  have h := C7_numeric_errors ["1.5"] "abc" ["2.5"]
    (by
      intro g hgm
      have hg15 : g = "1.5" := by simpa using hgm
      subst hg15
      exact ⟨3/2, of_decide_eq_true (by with_unfolding_all rfl)⟩)
    (by decide)
  refine ⟨?_, h.2 [] "eos" "x1" ["7"] (by decide) (by decide)⟩
  rw [h.1]
  exact of_decide_eq_true (by with_unfolding_all rfl)

/-- C7 counterexample: `str2float` on a body containing the non-numeric token
`abc` silently truncates — it returns only the values before the bad token
and raises nothing, while the same body with a numeric token yields all
three values.  This refutes "non-numeric tokens inside an array body are
never silently dropped or truncated into a shorter array". -/
theorem C7_counterexample :
    str2float ["1.0 abc 2.0"] = [(1 : ℚ)] ∧
    str2float ["1.0 9.0 2.0"] = [(1 : ℚ), 9, 2] :=
  ⟨of_decide_eq_true (by with_unfolding_all rfl),
    of_decide_eq_true (by with_unfolding_all rfl)⟩

end Propaceos
